import Mathlib

/-!
# Per-subnet request limiter (`main.go`)

A shallow embedding of `IpLimiter`, `NewIpLimiter`, `IpLimiter.Allow`, of the two
HTTP handlers of `main` and of the way the server of `main` picks one of them,
together with the functions of Go's `net` package that `Allow` uses to turn an
address into its subnet key.

Conventions of the embedding.

* A Go `map[string]V` is an association list searched from the front.
* `time.Time` and `time.Duration` are integers (nanoseconds on one clock);
  `t.Before(u)` is `t < u` and `t.Add(d)` is `t + d`.
* `Allow` reads the clock twice (`main.go:53` and `main.go:60`); the two
  readings are two arguments, `now₁` and `now₂`.
* Go `int` is `Int`.  The only arithmetic on it is `counts[subnet]++`, which
  `Allow` reaches with a missing count or with a count below `limit`, so the
  increment cannot leave the range of `int` (`Allow_count_in_range`).
* A nil or empty byte slice is `[]`; a byte is a `Nat`.
* The IPv6 text parser and the IPv6 text printer of `net` are a parameter
  (`NetV6`): every theorem holds whatever they return.
-/

namespace RateLimiter

/-! ## Go maps -/

/-- A Go `map[string]V` as an association list; the first pair of a key is the live one. -/
abbrev GoMap (V : Type) := List (String × V)

/-- The lookup `v, ok := m[k]`: `none` when `ok` is false. -/
def mapGet {V : Type} : GoMap V → String → Option V
  | [], _ => none
  | (k', v) :: rest, k => if k' = k then some v else mapGet rest k

/-- The assignment `m[k] = v`. -/
def mapSet {V : Type} : GoMap V → String → V → GoMap V
  | [], k, v => [(k, v)]
  | (k', v') :: rest, k, v =>
    if k' = k then (k, v) :: rest else (k', v') :: mapSet rest k v

/-- The statement `delete(m, k)`. -/
def mapDelete {V : Type} (m : GoMap V) (k : String) : GoMap V :=
  m.filter (fun e => decide (e.1 ≠ k))

/-- The keys a `for k := range m` loop visits. -/
def mapKeys {V : Type} (m : GoMap V) : List String :=
  m.map Prod.fst

/-- The test `strings.HasPrefix(s, pfx)`. -/
def HasPrefix (s pfx : String) : Bool :=
  pfx.data.isPrefixOf s.data

/-! ## The part of Go's `net` package used by `Allow` -/

/-- The IPv6 text parser and printer of `net`, left open. -/
structure NetV6 where
  /-- The parser `parseIPv6`: the 16 bytes of the address, or `none`. -/
  parseIPv6 : String → Option (List Nat)
  /-- The printer of a 16-byte address that is not an IPv4 one. -/
  stringIPv6 : List Nat → String

/-- The twelve bytes that precede an IPv4 address in its 16-byte form. -/
def v4InV6Prefix : List Nat :=
  [0, 0, 0, 0, 0, 0, 0, 0, 0, 0, 0xff, 0xff]

/-- The loop of `parseIPv4`: `prev` is the byte before the current one
(`none` at index 0), `fields` the octets stored so far (`pos` is their number). -/
def parseIPv4Loop : List Char → Option Char → List Nat → Nat → Nat → Option (List Nat)
  | [], _, fields, val, _ =>
    if fields.length < 3 then none else some (fields ++ [val])
  | c :: rest, prev, fields, val, digLen =>
    if '0' ≤ c ∧ c ≤ '9' then
      if digLen = 1 ∧ val = 0 then none
      else if val * 10 + (c.toNat - '0'.toNat) > 255 then none
      else parseIPv4Loop rest (some c) fields (val * 10 + (c.toNat - '0'.toNat)) (digLen + 1)
    else if c = '.' then
      if prev = none ∨ rest = [] ∨ prev = some '.' then none
      else if fields.length = 3 then none
      else parseIPv4Loop rest (some c) (fields ++ [val]) 0 0
    else none

/-- The dotted-quad parser `parseIPv4`: the four octets, or `none`. -/
def parseIPv4 (s : String) : Option (List Nat) :=
  parseIPv4Loop s.data none [] 0 0

/-- The scan of `ParseAddr` for the first `.`, `:` or `%` of the string. -/
def parseAddrScan (v6 : NetV6) (s : String) : List Char → Option (List Nat)
  | [] => none
  | c :: rest =>
    if c = '.' then (parseIPv4 s).map (fun b => v4InV6Prefix ++ b)
    else if c = ':' then v6.parseIPv6 s
    else if c = '%' then none
    else parseAddrScan v6 s rest

/-- The function `net.ParseIP`: the 16-byte form of the address, `none` for nil. -/
def ParseIP (v6 : NetV6) (s : String) : Option (List Nat) :=
  parseAddrScan v6 s s.data

/-- The loop of `net.CIDRMask` over the `l` bytes of the mask. -/
def cidrMaskLoop : Nat → Nat → List Nat
  | 0, _ => []
  | l + 1, n =>
    if n ≥ 8 then 0xff :: cidrMaskLoop l (n - 8)
    else (0xff ^^^ (0xff >>> n)) :: cidrMaskLoop l 0

/-- The function `net.CIDRMask(ones, bits)`; `[]` is the nil mask. -/
def CIDRMask (ones bits : Int) : List Nat :=
  if bits ≠ 32 ∧ bits ≠ 128 then []
  else if ones < 0 ∨ ones > bits then []
  else cidrMaskLoop (bits / 8).toNat ones.toNat

/-- The method `IP.Mask`; `[]` is the nil address. -/
def IP_Mask (ip mask : List Nat) : List Nat :=
  let mask₁ :=
    if mask.length = 16 ∧ ip.length = 4 ∧ (mask.take 12).all (fun b => b = 0xff)
    then mask.drop 12 else mask
  let ip₁ :=
    if mask₁.length = 4 ∧ ip.length = 16 ∧ ip.take 12 = v4InV6Prefix
    then ip.drop 12 else ip
  if ip₁.length ≠ mask₁.length then [] else List.zipWith (fun a b => a &&& b) ip₁ mask₁

/-- The method `IP.To4`; `[]` is nil. -/
def To4 (ip : List Nat) : List Nat :=
  if ip.length = 4 then ip
  else if ip.length = 16 ∧ (ip.take 10).all (fun b => b = 0) ∧
      ip.getD 10 0 = 0xff ∧ ip.getD 11 0 = 0xff then ip.drop 12
  else []

/-- The inner loop of `simpleMaskLength`: counts the leading one bits of the
byte `v`, shifting them out; returns the count and what is left of `v`. -/
def countLeadingOnes : Nat → Nat → Nat × Nat
  | 0, v => (0, v)
  | fuel + 1, v =>
    if v &&& 0x80 ≠ 0 then
      ((countLeadingOnes fuel ((v <<< 1) % 256)).1 + 1, (countLeadingOnes fuel ((v <<< 1) % 256)).2)
    else (0, v)

/-- The loop of `simpleMaskLength` with the running count `n`. -/
def simpleMaskLengthLoop : List Nat → Int → Int
  | [], n => n
  | v :: rest, n =>
    if v = 0xff then simpleMaskLengthLoop rest (n + 8)
    else if (countLeadingOnes 8 v).2 ≠ 0 then -1
    else if rest.all (fun b => b = 0) then n + (countLeadingOnes 8 v).1
    else -1

/-- The function `simpleMaskLength`: the number of leading ones of a mask of
the form 1…10…0, and -1 for any other mask. -/
def simpleMaskLength (mask : List Nat) : Int :=
  simpleMaskLengthLoop mask 0

/-- The decimal digit `d` as a character. -/
def digitChar (d : Nat) : Char :=
  Char.ofNat ('0'.toNat + d)

/-- The function `ubtoa`: the decimal text of a byte. -/
def ubtoa (v : Nat) : List Char :=
  if v < 10 then [digitChar v]
  else if v < 100 then [digitChar (v / 10), digitChar (v % 10)]
  else [digitChar (v / 100), digitChar ((v / 10) % 10), digitChar (v % 10)]

/-- The loop of `uitoa`, writing the digits from the right. -/
def uitoaLoop : Nat → Nat → List Char → List Char
  | 0, _, acc => acc
  | fuel + 1, val, acc =>
    if val ≥ 10 then uitoaLoop fuel (val / 10) (digitChar (val % 10) :: acc)
    else digitChar val :: acc

/-- The function `uitoa`: the decimal text of an unsigned integer (a buffer of 20 bytes). -/
def uitoa (val : Nat) : String :=
  if val = 0 then "0" else String.mk (uitoaLoop 20 val [])

/-- A hexadecimal digit. -/
def hexDigit (d : Nat) : Char :=
  if d < 10 then Char.ofNat ('0'.toNat + d) else Char.ofNat ('a'.toNat + (d - 10))

/-- The function `hexString` on a byte slice. -/
def hexChars : List Nat → List Char
  | [] => []
  | b :: rest => hexDigit (b / 16) :: hexDigit (b % 16) :: hexChars rest

/-- The method `IPMask.String`. -/
def IPMask_String (m : List Nat) : String :=
  if m.length = 0 then "<nil>" else String.mk (hexChars m)

/-- The dotted text of a 4-byte address. -/
def dottedQuad (ip : List Nat) : String :=
  String.mk (ubtoa (ip.getD 0 0) ++ '.' :: (ubtoa (ip.getD 1 0) ++ '.' ::
    (ubtoa (ip.getD 2 0) ++ '.' :: ubtoa (ip.getD 3 0))))

/-- The method `IP.String`. -/
def IP_String (v6 : NetV6) (ip : List Nat) : String :=
  if ip.length = 0 then "<nil>"
  else if ip.length ≠ 4 ∧ ip.length ≠ 16 then String.mk ('?' :: hexChars ip)
  else if (To4 ip).length = 4 then dottedQuad (To4 ip)
  else v6.stringIPv6 ip

/-- The function `networkNumberAndMask` on the fields of an `IPNet`; `none` is `nil, nil`. -/
def networkNumberAndMask (ip m : List Nat) : Option (List Nat × List Nat) :=
  if To4 ip = [] ∧ ip.length ≠ 16 then none
  else
    let ip₁ := if To4 ip = [] then ip else To4 ip
    if m.length = 4 then (if ip₁.length ≠ 4 then none else some (ip₁, m))
    else if m.length = 16 then some (ip₁, if ip₁.length = 4 then m.drop 12 else m)
    else none

/-- The method `IPNet.String` on a network with fields `IP: ip, Mask: m`. -/
def IPNet_String (v6 : NetV6) (ip m : List Nat) : String :=
  match networkNumberAndMask ip m with
  | none => "<nil>"
  | some (nn, m₁) =>
    if simpleMaskLength m₁ = -1 then IP_String v6 nn ++ "/" ++ IPMask_String m₁
    else IP_String v6 nn ++ "/" ++ uitoa (simpleMaskLength m₁).toNat

/-! ## The limiter -/

/-- The struct `IpLimiter` without its mutex. -/
structure IpLimiter where
  /-- Length of the subnet prefix in bits. -/
  prefixLen : Int
  /-- The request limit. -/
  limit : Int
  /-- The cooldown duration. -/
  cooldown : Int
  /-- Requests counted per subnet. -/
  counts : GoMap Int
  /-- End of the cooldown per subnet. -/
  resets : GoMap Int
  deriving DecidableEq

/-- The constructor `NewIpLimiter`. -/
def NewIpLimiter (prefixLen limit cooldown : Int) : IpLimiter :=
  { prefixLen := prefixLen, limit := limit, cooldown := cooldown, counts := [], resets := [] }

/-- The subnet text `ipNet.String()` that `Allow` computes from a parsed address
(`main.go:46-50`). -/
def subnetOf (v6 : NetV6) (prefixLen : Int) (ipAddr : List Nat) : String :=
  IPNet_String v6 (IP_Mask ipAddr (CIDRMask prefixLen 32)) (CIDRMask prefixLen 32)

/-- The subnet key of an address text: `none` when `net.ParseIP` returns nil. -/
def subnetKey (v6 : NetV6) (prefixLen : Int) (ip : String) : Option String :=
  (ParseIP v6 ip).map (subnetOf v6 prefixLen)

/-- The condition of `main.go:53`: the subnet has a cooldown entry and `now₁` is before it. -/
def cooldownActive (limiter : IpLimiter) (subnet : String) (now₁ : Int) : Bool :=
  match mapGet limiter.resets subnet with
  | some resetTime => decide (now₁ < resetTime)
  | none => false

/-- The condition of `main.go:58`: the subnet has a count and it is at least `limit`. -/
def overLimit (limiter : IpLimiter) (subnet : String) : Bool :=
  match mapGet limiter.counts subnet with
  | some count => decide (count ≥ limiter.limit)
  | none => false

/-- Lines 52-68 of `Allow`, once the subnet text is known. -/
def allowSubnet (limiter : IpLimiter) (subnet : String) (now₁ now₂ : Int) :
    Bool × IpLimiter :=
  if cooldownActive limiter subnet now₁ then (false, limiter)
  else if overLimit limiter subnet then
    (false, { limiter with
      resets := mapSet limiter.resets subnet (now₂ + limiter.cooldown)
      counts := mapSet limiter.counts subnet 0 })
  else
    (true, { limiter with
      counts := mapSet limiter.counts subnet ((mapGet limiter.counts subnet).getD 0 + 1) })

/-- The method `IpLimiter.Allow` with the two clock readings `now₁` (`main.go:53`)
and `now₂` (`main.go:60`): the result and the limiter after the call. -/
def Allow (v6 : NetV6) (limiter : IpLimiter) (ip : String) (now₁ now₂ : Int) :
    Bool × IpLimiter :=
  match ParseIP v6 ip with
  | none => (false, limiter)
  | some ipAddr => allowSubnet limiter (subnetOf v6 limiter.prefixLen ipAddr) now₁ now₂

/-- The loop of the `/reset` handler (`main.go:131-136`) over the keys `range` yields. -/
def resetLoop (pfx : String) : List String → IpLimiter → IpLimiter
  | [], limiter => limiter
  | subnet :: rest, limiter =>
    if HasPrefix subnet pfx then
      resetLoop pfx rest { limiter with
        counts := mapDelete limiter.counts subnet
        resets := mapDelete limiter.resets subnet }
    else resetLoop pfx rest limiter

/-- The reset the `/reset` handler performs under the lock for the prefix `pfx`. -/
def Reset (limiter : IpLimiter) (pfx : String) : IpLimiter :=
  resetLoop pfx (mapKeys limiter.counts) limiter

/-! ## Sequences of calls -/

/-- One call of `Allow`: the address text and the two clock readings. -/
structure Call where
  /-- The argument of `Allow`. -/
  ip : String
  /-- The clock at `main.go:53`. -/
  now₁ : Int
  /-- The clock at `main.go:60`. -/
  now₂ : Int
  deriving DecidableEq

/-- The subnet key `Allow` computes for the call `c`. -/
def callKey (v6 : NetV6) (prefixLen : Int) (c : Call) : Option String :=
  subnetKey v6 prefixLen c.ip

/-- The limiter after the calls `cs`, made one after the other. -/
def runCalls (v6 : NetV6) : IpLimiter → List Call → IpLimiter
  | limiter, [] => limiter
  | limiter, c :: cs => runCalls v6 (Allow v6 limiter c.ip c.now₁ c.now₂).2 cs

/-- The results of the calls `cs`, made one after the other. -/
def results (v6 : NetV6) : IpLimiter → List Call → List Bool
  | _, [] => []
  | limiter, c :: cs =>
    (Allow v6 limiter c.ip c.now₁ c.now₂).1 ::
      results v6 (Allow v6 limiter c.ip c.now₁ c.now₂).2 cs

/-- The results of those calls of `cs` whose subnet key is `k`. -/
def resultsFor (v6 : NetV6) (k : String) : IpLimiter → List Call → List Bool
  | _, [] => []
  | limiter, c :: cs =>
    if callKey v6 limiter.prefixLen c = some k then
      (Allow v6 limiter c.ip c.now₁ c.now₂).1 ::
        resultsFor v6 k (Allow v6 limiter c.ip c.now₁ c.now₂).2 cs
    else resultsFor v6 k (Allow v6 limiter c.ip c.now₁ c.now₂).2 cs

/-- The number of calls of `cs` whose subnet key is `k`. -/
def callsFor (v6 : NetV6) (k : String) (prefixLen : Int) (cs : List Call) : Nat :=
  (cs.filter (fun c => decide (callKey v6 prefixLen c = some k))).length

/-- An operation on the limiter: a call of `Allow` or a reset. -/
inductive Op where
  | allow (ip : String) (now₁ now₂ : Int)
  | reset (pfx : String)
  deriving DecidableEq

/-- The limiter after one operation. -/
def applyOp (v6 : NetV6) (limiter : IpLimiter) : Op → IpLimiter
  | Op.allow ip now₁ now₂ => (Allow v6 limiter ip now₁ now₂).2
  | Op.reset pfx => Reset limiter pfx

/-- The limiter after the operations `ops`, made one after the other. -/
def runOps (v6 : NetV6) (limiter : IpLimiter) (ops : List Op) : IpLimiter :=
  ops.foldl (applyOp v6) limiter

/-- The states reachable from a new limiter by calls of `Allow` and resets. -/
def Reachable (v6 : NetV6) (limiter : IpLimiter) : Prop :=
  ∃ (prefixLen limit cooldown : Int) (ops : List Op),
    limiter = runOps v6 (NewIpLimiter prefixLen limit cooldown) ops

/-- The call `c` on the limiter `l` is for the subnet `k` and takes the branch of
`main.go:58-63`: no cooldown of `k` is running at `c.now₁` and the count of `k` is at
least `limit`, so the call arms the cooldown of `k` at `c.now₂`. -/
def armsCooldown (v6 : NetV6) (l : IpLimiter) (c : Call) (k : String) : Prop :=
  callKey v6 l.prefixLen c = some k ∧ cooldownActive l k c.now₁ = false ∧ overLimit l k = true

/-- An instance of `NetV6` that accepts no IPv6 text, to evaluate calls on IPv4 text. -/
def v4only : NetV6 :=
  { parseIPv6 := fun _ => none, stringIPv6 := fun _ => "" }

/-- Every key with a cooldown entry has a count entry. -/
def ResetsHaveCounts (l : IpLimiter) : Prop :=
  ∀ k, mapGet l.resets k ≠ none → mapGet l.counts k ≠ none

/-- The decimal value of a digit text, used to read back what `ubtoa` wrote. -/
def atoiByte (cs : List Char) : Nat :=
  cs.foldl (fun acc c => acc * 10 + (c.toNat - '0'.toNat)) 0

/-- Bit `i` of an address given by its bytes, bit 0 being the first (most significant)
bit of the first byte. -/
def addrBit (ip : List Nat) (i : Nat) : Bool :=
  (ip.getD (i / 8) 0).testBit (7 - i % 8)

/-- The addresses `x` and `y` agree on their first `n` bits. -/
def sameLeadingBits (n : Nat) (x y : List Nat) : Prop :=
  ∀ i, i < n → addrBit x i = addrBit y i

instance sameLeadingBitsDecidable (n : Nat) (x y : List Nat) :
    Decidable (sameLeadingBits n x y) := by
  unfold sameLeadingBits; infer_instance

/-! ## The HTTP handlers of `main` -/

/-- The function `strings.Index(s, sep)`: the first position at which `sep` starts in
`s`, `none` for -1. -/
def Index : List Char → List Char → Option Nat
  | [], sep => if sep = [] then some 0 else none
  | c :: cs, sep =>
    if sep.isPrefixOf (c :: cs) then some 0 else (Index cs sep).map (fun m => m + 1)

/-- The loop of `strings.Split` for a separator that is not empty: it stops when
`Index` finds no separator. -/
def splitLoop (sep : List Char) : Nat → List Char → List (List Char)
  | 0, s => [s]
  | fuel + 1, s =>
    match Index s sep with
    | none => [s]
    | some m => s.take m :: splitLoop sep fuel (s.drop (m + sep.length))

/-- The function `strings.Split(s, sep)` for a separator that is not empty. -/
def Split (s sep : String) : List String :=
  (splitLoop sep.data s.length s.data).map String.mk

/-- What a handler reads of a request. -/
structure Request where
  /-- The path `r.URL.Path`. -/
  path : String
  /-- The value `r.URL.Query().Get("prefix")`, empty when the parameter is missing. -/
  prefixParam : String
  /-- The value `r.Header.Get("X-Forwarded-For")`, empty when the header is missing. -/
  forwardedFor : String
  deriving DecidableEq

/-- What a handler answers: the status, whether `Retry-After` is set (its value goes
through `float64` and is left out) and the body. -/
structure Response where
  /-- The status code. -/
  status : Nat
  /-- Whether the header `Retry-After` is set. -/
  retryAfter : Bool
  /-- The body. -/
  body : String
  deriving DecidableEq

/-- The address text of `main.go:108`: `strings.Split(header, ", ")[0]`. -/
def handlerIP (r : Request) : String :=
  (Split r.forwardedFor ", ").headD ""

/-- The handler of `main.go:107-119`, the `Handler` of the server. -/
def limitHandler (v6 : NetV6) (limiter : IpLimiter) (r : Request) (now₁ now₂ : Int) :
    Response × IpLimiter :=
  if !(Allow v6 limiter (handlerIP r) now₁ now₂).1 then
    ({ status := 429, retryAfter := true, body := "Too Many Requests\n" },
      (Allow v6 limiter (handlerIP r) now₁ now₂).2)
  else
    ({ status := 200, retryAfter := false, body := "Hello, World!" },
      (Allow v6 limiter (handlerIP r) now₁ now₂).2)

/-- The handler of `main.go:123-138`, registered for `/reset` with `http.HandleFunc`. -/
def resetHandler (limiter : IpLimiter) (r : Request) : Response × IpLimiter :=
  if r.prefixParam = "" then
    ({ status := 400, retryAfter := false, body := "Bad Request\n" }, limiter)
  else
    ({ status := 200, retryAfter := false, body := "" }, Reset limiter r.prefixParam)

/-- A handler: from the limiter, the request and the two clock readings to the
response and the limiter after it. -/
abbrev HandlerFunc := IpLimiter → Request → Int → Int → Response × IpLimiter

/-- The struct `http.Server`, reduced to its field `Handler` (`none` for nil). -/
structure Server where
  /-- The field `Handler`. -/
  Handler : Option HandlerFunc

/-- The default mux `http.DefaultServeMux` with patterns that are plain paths: the
handler of the pattern equal to the path, and 404 when there is none. -/
def muxServeHTTP : List (String × HandlerFunc) → HandlerFunc
  | [], limiter, _, _, _ =>
    ({ status := 404, retryAfter := false, body := "404 page not found\n" }, limiter)
  | (pattern, h) :: rest, limiter, r, now₁, now₂ =>
    if pattern = r.path then h limiter r now₁ now₂
    else muxServeHTTP rest limiter r now₁ now₂

/-- The dispatch of `http.Server` (`serverHandler.ServeHTTP`, without its `OPTIONS *`
case): the field `Handler` when it is not nil, the default mux otherwise. -/
def serverServeHTTP (srv : Server) (defaultMux : List (String × HandlerFunc)) : HandlerFunc :=
  match srv.Handler with
  | some h => h
  | none => muxServeHTTP defaultMux

/-- The server `main` builds (`main.go:105-120`). -/
def mainServer (v6 : NetV6) : Server :=
  { Handler := some (limitHandler v6) }

/-- The default mux after `http.HandleFunc("/reset", ...)` (`main.go:123`). -/
def mainDefaultMux : List (String × HandlerFunc) :=
  [("/reset", fun limiter r _ _ => resetHandler limiter r)]

/-- What `server.ListenAndServe()` of `main.go:142` does with one request. -/
def serve (v6 : NetV6) : HandlerFunc :=
  serverServeHTTP (mainServer v6) mainDefaultMux

/-- The text before the first comma of `s` (all of `s` when it has no comma). -/
def beforeFirstComma (s : String) : String :=
  String.mk (s.data.takeWhile (fun c => c != ','))

/-! ## Counting admitted calls -/

/-- The clock does not go back over the calls `cs`, starting from the reading `t`:
each reading is at least the one before it. -/
def clockFrom : Int → List Call → Bool
  | _, [] => true
  | t, c :: cs => decide (t ≤ c.now₁) && decide (c.now₁ ≤ c.now₂) && clockFrom c.now₂ cs

/-- The number of calls of `cs` for the subnet `k`, with the reading of `main.go:53` in
the interval from `s` (included) to `e` (excluded), that return `true`. -/
def admittedIn (v6 : NetV6) (k : String) (s e : Int) : IpLimiter → List Call → Nat
  | _, [] => 0
  | limiter, c :: cs =>
    (if callKey v6 limiter.prefixLen c = some k ∧ s ≤ c.now₁ ∧ c.now₁ < e ∧
        (Allow v6 limiter c.ip c.now₁ c.now₂).1 = true then 1 else 0) +
      admittedIn v6 k s e (Allow v6 limiter c.ip c.now₁ c.now₂).2 cs

/-- Every pair of the count map has a count that satisfies `P`. -/
def countsAll (P : Int → Prop) (l : IpLimiter) : Prop :=
  ∀ e ∈ l.counts, P e.2

/-! ## Lemmas on maps -/

theorem mapGet_mapSet_self {V : Type} (m : GoMap V) (k : String) (v : V) :
    mapGet (mapSet m k v) k = some v := by
  induction m with
  | nil => simp [mapSet, mapGet]
  | cons e rest ih =>
    obtain ⟨k', v'⟩ := e
    by_cases h : k' = k
    · simp [mapSet, mapGet, h]
    · simp [mapSet, mapGet, h, ih]

theorem mapGet_mapSet_ne {V : Type} (m : GoMap V) (k k' : String) (v : V) (hne : k' ≠ k) :
    mapGet (mapSet m k v) k' = mapGet m k' := by
  induction m with
  | nil => simp [mapSet, mapGet, Ne.symm hne]
  | cons e rest ih =>
    obtain ⟨k₀, v₀⟩ := e
    by_cases h : k₀ = k
    · subst h
      simp [mapSet, mapGet, Ne.symm hne]
    · by_cases h' : k₀ = k'
      · subst h'
        simp [mapSet, mapGet, h]
      · simp [mapSet, mapGet, h, h', ih]

theorem mapGet_mapDelete_self {V : Type} (m : GoMap V) (k : String) :
    mapGet (mapDelete m k) k = none := by
  induction m with
  | nil => simp [mapDelete, mapGet]
  | cons e rest ih =>
    obtain ⟨k₀, v₀⟩ := e
    by_cases h : k₀ = k
    · simpa [mapDelete, List.filter_cons, h] using ih
    · simpa [mapDelete, List.filter_cons, h, mapGet] using ih

theorem mapGet_mapDelete_ne {V : Type} (m : GoMap V) (k k' : String) (hne : k' ≠ k) :
    mapGet (mapDelete m k) k' = mapGet m k' := by
  induction m with
  | nil => simp [mapDelete, mapGet]
  | cons e rest ih =>
    obtain ⟨k₀, v₀⟩ := e
    by_cases h : k₀ = k
    · subst h
      simpa [mapDelete, List.filter_cons, mapGet, Ne.symm hne] using ih
    · by_cases h' : k₀ = k'
      · subst h'
        simp [mapDelete, List.filter_cons, h, mapGet]
      · simpa [mapDelete, List.filter_cons, h, mapGet, h'] using ih

theorem mem_mapKeys_iff {V : Type} (m : GoMap V) (k : String) :
    k ∈ mapKeys m ↔ mapGet m k ≠ none := by
  induction m with
  | nil => simp [mapKeys, mapGet]
  | cons e rest ih =>
    obtain ⟨k₀, v₀⟩ := e
    by_cases h : k₀ = k
    · simp [mapKeys, mapGet, h]
    · have ih' : k ∈ List.map Prod.fst rest ↔ mapGet rest k ≠ none := ih
      simp [mapKeys, mapGet, h, Ne.symm h, ih']

theorem mapDelete_of_not_mem {V : Type} (m : GoMap V) (k : String)
    (h : mapGet m k = none) : mapDelete m k = m := by
  induction m with
  | nil => simp [mapDelete]
  | cons e rest ih =>
    obtain ⟨k₀, v₀⟩ := e
    by_cases hk : k₀ = k
    · simp [mapGet, hk] at h
    · simp only [mapGet, hk, if_false] at h
      have ih' : List.filter (fun e : String × V => decide (e.1 ≠ k)) rest = rest := ih h
      show List.filter (fun e : String × V => decide (e.1 ≠ k)) ((k₀, v₀) :: rest) = _
      rw [List.filter_cons_of_pos (by simpa using hk), ih']

/-! ## One call of `Allow` -/

theorem Allow_of_subnetKey (v6 : NetV6) (l : IpLimiter) (ip k : String) (now₁ now₂ : Int)
    (h : subnetKey v6 l.prefixLen ip = some k) :
    Allow v6 l ip now₁ now₂ = allowSubnet l k now₁ now₂ := by
  unfold subnetKey at h
  unfold Allow
  cases hp : ParseIP v6 ip with
  | none => simp [hp] at h
  | some ipAddr =>
    simp only [hp, Option.map_some', Option.some.injEq] at h
    simp [h]

theorem Allow_of_subnetKey_none (v6 : NetV6) (l : IpLimiter) (ip : String) (now₁ now₂ : Int)
    (h : subnetKey v6 l.prefixLen ip = none) :
    Allow v6 l ip now₁ now₂ = (false, l) := by
  unfold subnetKey at h
  unfold Allow
  cases hp : ParseIP v6 ip with
  | none => rfl
  | some ipAddr => simp [hp] at h

theorem cooldownActive_iff (l : IpLimiter) (k : String) (now₁ : Int) :
    cooldownActive l k now₁ = true ↔ ∃ u, mapGet l.resets k = some u ∧ now₁ < u := by
  unfold cooldownActive
  cases mapGet l.resets k <;> simp

theorem overLimit_iff (l : IpLimiter) (k : String) :
    overLimit l k = true ↔ ∃ c, mapGet l.counts k = some c ∧ l.limit ≤ c := by
  unfold overLimit
  cases mapGet l.counts k <;> simp

theorem allowSubnet_blocked (l : IpLimiter) (k : String) (now₁ now₂ : Int)
    (h : cooldownActive l k now₁ = true) : allowSubnet l k now₁ now₂ = (false, l) := by
  simp [allowSubnet, h]

theorem allowSubnet_arm (l : IpLimiter) (k : String) (now₁ now₂ : Int)
    (h : cooldownActive l k now₁ = false) (ho : overLimit l k = true) :
    allowSubnet l k now₁ now₂ =
      (false, { l with
        resets := mapSet l.resets k (now₂ + l.cooldown)
        counts := mapSet l.counts k 0 }) := by
  simp [allowSubnet, h, ho]

theorem allowSubnet_admits (l : IpLimiter) (k : String) (now₁ now₂ : Int)
    (h : cooldownActive l k now₁ = false) (ho : overLimit l k = false) :
    allowSubnet l k now₁ now₂ =
      (true, { l with counts := mapSet l.counts k ((mapGet l.counts k).getD 0 + 1) }) := by
  simp [allowSubnet, h, ho]

theorem allowSubnet_config (l : IpLimiter) (k : String) (now₁ now₂ : Int) :
    (allowSubnet l k now₁ now₂).2.prefixLen = l.prefixLen ∧
    (allowSubnet l k now₁ now₂).2.limit = l.limit ∧
    (allowSubnet l k now₁ now₂).2.cooldown = l.cooldown := by
  unfold allowSubnet
  split
  · simp
  · split <;> simp

theorem allowSubnet_frame (l : IpLimiter) (k k' : String) (now₁ now₂ : Int) (hne : k' ≠ k) :
    mapGet (allowSubnet l k now₁ now₂).2.counts k' = mapGet l.counts k' ∧
    mapGet (allowSubnet l k now₁ now₂).2.resets k' = mapGet l.resets k' := by
  unfold allowSubnet
  split
  · simp
  · split <;> simp [mapGet_mapSet_ne _ _ _ _ hne]

theorem Allow_config (v6 : NetV6) (l : IpLimiter) (ip : String) (now₁ now₂ : Int) :
    (Allow v6 l ip now₁ now₂).2.prefixLen = l.prefixLen ∧
    (Allow v6 l ip now₁ now₂).2.limit = l.limit ∧
    (Allow v6 l ip now₁ now₂).2.cooldown = l.cooldown := by
  cases h : subnetKey v6 l.prefixLen ip with
  | none => simp [Allow_of_subnetKey_none v6 l ip now₁ now₂ h]
  | some k =>
    rw [Allow_of_subnetKey v6 l ip k now₁ now₂ h]
    exact allowSubnet_config l k now₁ now₂

@[simp]
theorem Allow_prefixLen (v6 : NetV6) (l : IpLimiter) (ip : String) (now₁ now₂ : Int) :
    (Allow v6 l ip now₁ now₂).2.prefixLen = l.prefixLen :=
  (Allow_config v6 l ip now₁ now₂).1

@[simp]
theorem Allow_limit (v6 : NetV6) (l : IpLimiter) (ip : String) (now₁ now₂ : Int) :
    (Allow v6 l ip now₁ now₂).2.limit = l.limit :=
  (Allow_config v6 l ip now₁ now₂).2.1

@[simp]
theorem Allow_cooldown (v6 : NetV6) (l : IpLimiter) (ip : String) (now₁ now₂ : Int) :
    (Allow v6 l ip now₁ now₂).2.cooldown = l.cooldown :=
  (Allow_config v6 l ip now₁ now₂).2.2

/-- A call whose subnet key is not `k` leaves the two entries of `k` as they were. -/
theorem Allow_frame (v6 : NetV6) (l : IpLimiter) (ip k : String) (now₁ now₂ : Int)
    (hne : subnetKey v6 l.prefixLen ip ≠ some k) :
    mapGet (Allow v6 l ip now₁ now₂).2.counts k = mapGet l.counts k ∧
    mapGet (Allow v6 l ip now₁ now₂).2.resets k = mapGet l.resets k := by
  cases h : subnetKey v6 l.prefixLen ip with
  | none => simp [Allow_of_subnetKey_none v6 l ip now₁ now₂ h]
  | some k₀ =>
    rw [Allow_of_subnetKey v6 l ip k₀ now₁ now₂ h]
    refine allowSubnet_frame l k₀ k now₁ now₂ ?_
    intro hk
    exact hne (by rw [h, hk])

/-! ## Sequences of calls: the entries of one key -/

theorem callsFor_cons_pos (v6 : NetV6) (k : String) (p : Int) (c : Call) (cs : List Call)
    (h : callKey v6 p c = some k) : callsFor v6 k p (c :: cs) = callsFor v6 k p cs + 1 := by
  simp [callsFor, List.filter_cons, h]

theorem callsFor_cons_neg (v6 : NetV6) (k : String) (p : Int) (c : Call) (cs : List Call)
    (h : callKey v6 p c ≠ some k) : callsFor v6 k p (c :: cs) = callsFor v6 k p cs := by
  simp [callsFor, List.filter_cons, h]

theorem callsFor_of_all (v6 : NetV6) (k : String) (p : Int) (cs : List Call)
    (h : ∀ c ∈ cs, callKey v6 p c = some k) : callsFor v6 k p cs = cs.length := by
  induction cs with
  | nil => rfl
  | cons c cs ih =>
    rw [callsFor_cons_pos v6 k p c cs (h c (List.mem_cons_self c cs)),
      ih (fun x hx => h x (List.mem_cons_of_mem c hx))]
    rfl

theorem resultsFor_of_all (v6 : NetV6) (k : String) :
    ∀ (cs : List Call) (l : IpLimiter), (∀ c ∈ cs, callKey v6 l.prefixLen c = some k) →
      resultsFor v6 k l cs = results v6 l cs := by
  intro cs
  induction cs with
  | nil => intro l _; rfl
  | cons c cs ih =>
    intro l h
    have hc := h c (List.mem_cons_self c cs)
    have ih' := ih (Allow v6 l c.ip c.now₁ c.now₂).2
      (by simpa using fun x hx => h x (List.mem_cons_of_mem c hx))
    simp [resultsFor, results, hc, ih']

theorem runCalls_config (v6 : NetV6) : ∀ (cs : List Call) (l : IpLimiter),
    (runCalls v6 l cs).prefixLen = l.prefixLen ∧ (runCalls v6 l cs).limit = l.limit ∧
    (runCalls v6 l cs).cooldown = l.cooldown := by
  intro cs
  induction cs with
  | nil => intro l; simp [runCalls]
  | cons c cs ih =>
    intro l
    have := ih (Allow v6 l c.ip c.now₁ c.now₂).2
    simpa [runCalls] using this

theorem runCalls_append (v6 : NetV6) : ∀ (cs ds : List Call) (l : IpLimiter),
    runCalls v6 l (cs ++ ds) = runCalls v6 (runCalls v6 l cs) ds := by
  intro cs
  induction cs with
  | nil => intro ds l; rfl
  | cons c cs ih => intro ds l; simp [runCalls, ih]

theorem results_append (v6 : NetV6) : ∀ (cs ds : List Call) (l : IpLimiter),
    results v6 l (cs ++ ds) = results v6 l cs ++ results v6 (runCalls v6 l cs) ds := by
  intro cs
  induction cs with
  | nil => intro ds l; rfl
  | cons c cs ih => intro ds l; simp [runCalls, results, ih]

/-- Calls for other keys leave the two entries of `k` as they were. -/
theorem runCalls_frame (v6 : NetV6) (k : String) : ∀ (cs : List Call) (l : IpLimiter),
    (∀ c ∈ cs, callKey v6 l.prefixLen c ≠ some k) →
    mapGet (runCalls v6 l cs).counts k = mapGet l.counts k ∧
    mapGet (runCalls v6 l cs).resets k = mapGet l.resets k := by
  intro cs
  induction cs with
  | nil => intro l _; simp [runCalls]
  | cons c cs ih =>
    intro l h
    have hc := h c (List.mem_cons_self c cs)
    have hf := Allow_frame v6 l c.ip k c.now₁ c.now₂ hc
    have ih' := ih (Allow v6 l c.ip c.now₁ c.now₂).2
      (by simpa using fun x hx => h x (List.mem_cons_of_mem c hx))
    simp only [runCalls]
    rw [ih'.1, ih'.2, hf.1, hf.2]
    exact ⟨rfl, rfl⟩

theorem resultsFor_of_callsFor_zero (v6 : NetV6) (k : String) :
    ∀ (cs : List Call) (l : IpLimiter), callsFor v6 k l.prefixLen cs = 0 →
      resultsFor v6 k l cs = [] := by
  intro cs
  induction cs with
  | nil => intro l _; rfl
  | cons c cs ih =>
    intro l h
    by_cases hc : callKey v6 l.prefixLen c = some k
    · rw [callsFor_cons_pos v6 k _ c cs hc] at h
      omega
    · rw [callsFor_cons_neg v6 k _ c cs hc] at h
      have ih' := ih (Allow v6 l c.ip c.now₁ c.now₂).2 (by simpa using h)
      simp [resultsFor, hc, ih']

/-- While the cooldown of `k` is running, the calls for `k` are rejected and the
two entries of `k` stay as they are. -/
theorem blocked_phase (v6 : NetV6) (k : String) (u : Int) :
    ∀ (cs : List Call) (l : IpLimiter), mapGet l.resets k = some u →
    (∀ c ∈ cs, callKey v6 l.prefixLen c = some k → c.now₁ < u) →
    resultsFor v6 k l cs = List.replicate (callsFor v6 k l.prefixLen cs) false ∧
    mapGet (runCalls v6 l cs).counts k = mapGet l.counts k ∧
    mapGet (runCalls v6 l cs).resets k = some u := by
  intro cs
  induction cs with
  | nil => intro l hu _; simp [resultsFor, callsFor, runCalls, hu]
  | cons c cs ih =>
    intro l hu h
    by_cases hc : callKey v6 l.prefixLen c = some k
    · have hact : cooldownActive l k c.now₁ = true :=
        (cooldownActive_iff l k c.now₁).2 ⟨u, hu, h c (List.mem_cons_self c cs) hc⟩
      have hA : Allow v6 l c.ip c.now₁ c.now₂ = (false, l) := by
        rw [Allow_of_subnetKey v6 l c.ip k c.now₁ c.now₂ hc, allowSubnet_blocked l k _ _ hact]
      have ih' := ih l hu (fun x hx => h x (List.mem_cons_of_mem c hx))
      rw [callsFor_cons_pos v6 k _ c cs hc]
      simp only [resultsFor, runCalls, hc, if_true, hA]
      exact ⟨by rw [ih'.1]; rfl, ih'.2.1, ih'.2.2⟩
    · have hf := Allow_frame v6 l c.ip k c.now₁ c.now₂ hc
      have ih' := ih (Allow v6 l c.ip c.now₁ c.now₂).2 (by rw [hf.2]; exact hu)
        (by simpa using fun x hx => h x (List.mem_cons_of_mem c hx))
      rw [callsFor_cons_neg v6 k _ c cs hc]
      simp only [resultsFor, runCalls, hc, if_false]
      simp only [Allow_prefixLen] at ih'
      exact ⟨ih'.1, by rw [ih'.2.1, hf.1], ih'.2.2⟩

theorem cooldownActive_false_of (l : IpLimiter) (k : String) (now₁ : Int)
    (h : ∀ u, mapGet l.resets k = some u → u ≤ now₁) : cooldownActive l k now₁ = false := by
  cases hb : cooldownActive l k now₁ with
  | false => rfl
  | true =>
    obtain ⟨u, hu, hlt⟩ := (cooldownActive_iff l k now₁).1 hb
    have := h u hu
    omega

theorem overLimit_false_iff (l : IpLimiter) (k : String) :
    overLimit l k = false ↔ ∀ c, mapGet l.counts k = some c → c < l.limit := by
  unfold overLimit
  cases mapGet l.counts k <;> simp

/-- With no cooldown running for `k`, the calls for `k` are admitted until the count
of `k` is `limit`, and the next call for `k` is rejected. -/
theorem admit_then_reject (v6 : NetV6) (k : String) :
    ∀ (cs : List Call) (l : IpLimiter),
    (∀ c ∈ cs, callKey v6 l.prefixLen c = some k →
      ∀ u, mapGet l.resets k = some u → u ≤ c.now₁) →
    (mapGet l.counts k = none → 1 ≤ l.limit) →
    (mapGet l.counts k).getD 0 ≤ l.limit →
    (mapGet l.counts k).getD 0 + (callsFor v6 k l.prefixLen cs : Int) = l.limit + 1 →
    resultsFor v6 k l cs =
      List.replicate (callsFor v6 k l.prefixLen cs - 1) true ++ [false] := by
  intro cs
  induction cs with
  | nil =>
    intro l _ _ hle hn
    simp [callsFor] at hn
    omega
  | cons c cs ih =>
    intro l hcool hnone hle hn
    by_cases hc : callKey v6 l.prefixLen c = some k
    · have hact : cooldownActive l k c.now₁ = false :=
        cooldownActive_false_of l k c.now₁ (hcool c (List.mem_cons_self c cs) hc)
      rw [callsFor_cons_pos v6 k _ c cs hc] at hn ⊢
      have hA := Allow_of_subnetKey v6 l c.ip k c.now₁ c.now₂ hc
      cases ho : overLimit l k with
      | true =>
        obtain ⟨c₀, hc₀, hlim⟩ := (overLimit_iff l k).1 ho
        rw [hc₀] at hle hn
        simp only [Option.getD_some] at hle hn
        have hz : callsFor v6 k l.prefixLen cs = 0 := by push_cast at hn; omega
        rw [allowSubnet_arm l k _ _ hact ho] at hA
        have hnil := resultsFor_of_callsFor_zero v6 k cs (Allow v6 l c.ip c.now₁ c.now₂).2
          (by simpa using hz)
        simp only [resultsFor, hc, if_true, hnil, hz]
        simp [hA]
      | false =>
        have hlt := (overLimit_false_iff l k).1 ho
        rw [allowSubnet_admits l k _ _ hact ho] at hA
        have hle' : (mapGet l.counts k).getD 0 + 1 ≤ l.limit := by
          cases hg : mapGet l.counts k with
          | none => simpa using hnone hg
          | some c₀ => have := hlt c₀ hg; simp; omega
        have hget : mapGet (Allow v6 l c.ip c.now₁ c.now₂).2.counts k =
            some ((mapGet l.counts k).getD 0 + 1) := by
          rw [hA]; exact mapGet_mapSet_self _ _ _
        have hres : (Allow v6 l c.ip c.now₁ c.now₂).2.resets = l.resets := by rw [hA]
        have ih' := ih (Allow v6 l c.ip c.now₁ c.now₂).2
          (by
            intro x hx hxk u hu
            rw [hres] at hu
            exact hcool x (List.mem_cons_of_mem c hx) (by simpa using hxk) u hu)
          (by intro h0; rw [hget] at h0; cases h0)
          (by rw [hget]; simpa using hle')
          (by
            rw [hget]
            simp only [Option.getD_some, Allow_prefixLen, Allow_limit]
            push_cast at hn ⊢
            omega)
        simp only [Allow_prefixLen] at ih'
        have hpos : 1 ≤ callsFor v6 k l.prefixLen cs := by
          have : (1 : Int) ≤ (callsFor v6 k l.prefixLen cs : Int) := by
            push_cast at hn; omega
          exact_mod_cast this
        simp only [resultsFor, hc, if_true, ih']
        have hr : (Allow v6 l c.ip c.now₁ c.now₂).1 = true := by rw [hA]
        rw [hr]
        obtain ⟨m, hm⟩ : ∃ m, callsFor v6 k l.prefixLen cs = m + 1 := ⟨_, (Nat.sub_add_cancel hpos).symm⟩
        rw [hm]
        simp [List.replicate_succ]
    · have hf := Allow_frame v6 l c.ip k c.now₁ c.now₂ hc
      rw [callsFor_cons_neg v6 k _ c cs hc] at hn ⊢
      have ih' := ih (Allow v6 l c.ip c.now₁ c.now₂).2
        (by
          intro x hx hxk u hu
          rw [hf.2] at hu
          exact hcool x (List.mem_cons_of_mem c hx) (by simpa using hxk) u hu)
        (by rw [hf.1]; simpa using hnone)
        (by rw [hf.1]; simpa using hle)
        (by rw [hf.1]; simpa using hn)
      simp only [Allow_prefixLen] at ih'
      simp only [resultsFor, hc, if_false, ih']

/-- The state after a call that arms the cooldown of `k`. -/
theorem armsCooldown_effect (v6 : NetV6) (l : IpLimiter) (c : Call) (k : String)
    (h : armsCooldown v6 l c k) :
    (Allow v6 l c.ip c.now₁ c.now₂).1 = false ∧
    mapGet (Allow v6 l c.ip c.now₁ c.now₂).2.resets k = some (c.now₂ + l.cooldown) ∧
    mapGet (Allow v6 l c.ip c.now₁ c.now₂).2.counts k = some 0 := by
  obtain ⟨hk, hact, ho⟩ := h
  rw [Allow_of_subnetKey v6 l c.ip k c.now₁ c.now₂ hk, allowSubnet_arm l k _ _ hact ho]
  exact ⟨rfl, mapGet_mapSet_self _ _ _, mapGet_mapSet_self _ _ _⟩

/-! ## The reset loop -/

theorem resetLoop_config (pfx : String) : ∀ (ks : List String) (l : IpLimiter),
    (resetLoop pfx ks l).prefixLen = l.prefixLen ∧ (resetLoop pfx ks l).limit = l.limit ∧
    (resetLoop pfx ks l).cooldown = l.cooldown := by
  intro ks
  induction ks with
  | nil => intro l; simp [resetLoop]
  | cons s ks ih =>
    intro l
    unfold resetLoop
    split
    · simpa using ih _
    · exact ih l

/-- The loop leaves the entries of a key that does not start with `pfx` as they were. -/
theorem resetLoop_frame (pfx k : String) (hk : HasPrefix k pfx = false) :
    ∀ (ks : List String) (l : IpLimiter),
    mapGet (resetLoop pfx ks l).counts k = mapGet l.counts k ∧
    mapGet (resetLoop pfx ks l).resets k = mapGet l.resets k := by
  intro ks
  induction ks with
  | nil => intro l; simp [resetLoop]
  | cons s ks ih =>
    intro l
    unfold resetLoop
    split
    · rename_i hs
      have hne : k ≠ s := by
        intro h; subst h; rw [hs] at hk; cases hk
      have := ih { l with counts := mapDelete l.counts s, resets := mapDelete l.resets s }
      rw [this.1, this.2]
      exact ⟨mapGet_mapDelete_ne _ _ _ hne, mapGet_mapDelete_ne _ _ _ hne⟩
    · exact ih l

/-- The loop leaves the entries of a key it does not visit as they were. -/
theorem resetLoop_not_visited (pfx k : String) :
    ∀ (ks : List String) (l : IpLimiter), k ∉ ks →
    mapGet (resetLoop pfx ks l).counts k = mapGet l.counts k ∧
    mapGet (resetLoop pfx ks l).resets k = mapGet l.resets k := by
  intro ks
  induction ks with
  | nil => intro l _; simp [resetLoop]
  | cons s ks ih =>
    intro l hk
    have hne : k ≠ s := fun h => hk (by rw [h]; exact List.mem_cons_self s ks)
    have hks : k ∉ ks := fun h => hk (List.mem_cons_of_mem s h)
    unfold resetLoop
    split
    · have := ih { l with counts := mapDelete l.counts s, resets := mapDelete l.resets s } hks
      rw [this.1, this.2]
      exact ⟨mapGet_mapDelete_ne _ _ _ hne, mapGet_mapDelete_ne _ _ _ hne⟩
    · exact ih l hks

/-- The loop never adds an entry. -/
theorem resetLoop_none (pfx k : String) :
    ∀ (ks : List String) (l : IpLimiter),
    (mapGet l.counts k = none → mapGet (resetLoop pfx ks l).counts k = none) ∧
    (mapGet l.resets k = none → mapGet (resetLoop pfx ks l).resets k = none) := by
  intro ks
  induction ks with
  | nil => intro l; simp [resetLoop]
  | cons s ks ih =>
    intro l
    unfold resetLoop
    split
    · have := ih { l with counts := mapDelete l.counts s, resets := mapDelete l.resets s }
      constructor
      · intro h
        apply this.1
        by_cases hks : k = s
        · subst hks; exact mapGet_mapDelete_self _ _
        · show mapGet (mapDelete l.counts s) k = none
          rw [mapGet_mapDelete_ne _ _ _ hks]; exact h
      · intro h
        apply this.2
        by_cases hks : k = s
        · subst hks; exact mapGet_mapDelete_self _ _
        · show mapGet (mapDelete l.resets s) k = none
          rw [mapGet_mapDelete_ne _ _ _ hks]; exact h
    · exact ih l

/-- The loop removes both entries of a visited key that starts with `pfx`. -/
theorem resetLoop_visited (pfx k : String) (hk : HasPrefix k pfx = true) :
    ∀ (ks : List String) (l : IpLimiter), k ∈ ks →
    mapGet (resetLoop pfx ks l).counts k = none ∧
    mapGet (resetLoop pfx ks l).resets k = none := by
  intro ks
  induction ks with
  | nil => intro l h; cases h
  | cons s ks ih =>
    intro l hmem
    by_cases hks : k = s
    · subst hks
      unfold resetLoop
      rw [if_pos hk]
      have := resetLoop_none pfx k ks
        { l with counts := mapDelete l.counts k, resets := mapDelete l.resets k }
      exact ⟨this.1 (mapGet_mapDelete_self _ _), this.2 (mapGet_mapDelete_self _ _)⟩
    · have hmem' : k ∈ ks := by
        rcases List.mem_cons.1 hmem with h | h
        · exact absurd h hks
        · exact h
      unfold resetLoop
      split
      · exact ih _ hmem'
      · exact ih l hmem'

theorem resetLoop_of_no_match (pfx : String) :
    ∀ (ks : List String) (l : IpLimiter), (∀ k ∈ ks, HasPrefix k pfx = false) →
    resetLoop pfx ks l = l := by
  intro ks
  induction ks with
  | nil => intro l _; rfl
  | cons s ks ih =>
    intro l h
    unfold resetLoop
    rw [if_neg (by rw [h s (List.mem_cons_self s ks)]; simp)]
    exact ih l (fun k hk => h k (List.mem_cons_of_mem s hk))

/-! ## Reachable states -/

theorem resetsHaveCounts_new (prefixLen limit cooldown : Int) :
    ResetsHaveCounts (NewIpLimiter prefixLen limit cooldown) := by
  intro k h
  simp [NewIpLimiter, mapGet] at h

theorem resetsHaveCounts_allowSubnet (l : IpLimiter) (k : String) (now₁ now₂ : Int)
    (h : ResetsHaveCounts l) : ResetsHaveCounts (allowSubnet l k now₁ now₂).2 := by
  intro k' hk'
  by_cases hne : k' = k
  · subst hne
    unfold allowSubnet
    split
    · unfold allowSubnet at hk'
      simp only [*, if_true] at hk'
      exact h k' hk'
    · split <;> simp [mapGet_mapSet_self]
  · have hf := allowSubnet_frame l k k' now₁ now₂ hne
    rw [hf.1]
    rw [hf.2] at hk'
    exact h k' hk'

theorem resetsHaveCounts_Allow (v6 : NetV6) (l : IpLimiter) (ip : String) (now₁ now₂ : Int)
    (h : ResetsHaveCounts l) : ResetsHaveCounts (Allow v6 l ip now₁ now₂).2 := by
  cases hk : subnetKey v6 l.prefixLen ip with
  | none => rw [Allow_of_subnetKey_none v6 l ip now₁ now₂ hk]; exact h
  | some k =>
    rw [Allow_of_subnetKey v6 l ip k now₁ now₂ hk]
    exact resetsHaveCounts_allowSubnet l k now₁ now₂ h

theorem resetsHaveCounts_Reset (l : IpLimiter) (pfx : String)
    (h : ResetsHaveCounts l) : ResetsHaveCounts (Reset l pfx) := by
  intro k hk
  unfold Reset at hk ⊢
  cases hp : HasPrefix k pfx with
  | false =>
    have hf := resetLoop_frame pfx k hp (mapKeys l.counts) l
    rw [hf.1]
    rw [hf.2] at hk
    exact h k hk
  | true =>
    by_cases hmem : k ∈ mapKeys l.counts
    · exact absurd (resetLoop_visited pfx k hp (mapKeys l.counts) l hmem).2 hk
    · have hf := resetLoop_not_visited pfx k (mapKeys l.counts) l hmem
      rw [hf.2] at hk
      exact absurd (h k hk) (by rw [← mem_mapKeys_iff]; exact hmem)

theorem resetsHaveCounts_runOps (v6 : NetV6) : ∀ (ops : List Op) (l : IpLimiter),
    ResetsHaveCounts l → ResetsHaveCounts (runOps v6 l ops) := by
  intro ops
  induction ops with
  | nil => intro l h; exact h
  | cons op ops ih =>
    intro l h
    show ResetsHaveCounts (runOps v6 (applyOp v6 l op) ops)
    apply ih
    cases op with
    | allow ip now₁ now₂ => exact resetsHaveCounts_Allow v6 l ip now₁ now₂ h
    | reset pfx => exact resetsHaveCounts_Reset l pfx h

theorem resetsHaveCounts_of_reachable (v6 : NetV6) (l : IpLimiter) (h : Reachable v6 l) :
    ResetsHaveCounts l := by
  obtain ⟨p, L, d, ops, rfl⟩ := h
  exact resetsHaveCounts_runOps v6 ops _ (resetsHaveCounts_new p L d)

/-- After a reset of a state in which every cooldown entry has a count entry, a key
that starts with `pfx` has no entry. -/
theorem Reset_clears (l : IpLimiter) (pfx k : String) (h : ResetsHaveCounts l)
    (hk : HasPrefix k pfx = true) :
    mapGet (Reset l pfx).counts k = none ∧ mapGet (Reset l pfx).resets k = none := by
  unfold Reset
  by_cases hmem : k ∈ mapKeys l.counts
  · exact resetLoop_visited pfx k hk (mapKeys l.counts) l hmem
  · have hf := resetLoop_not_visited pfx k (mapKeys l.counts) l hmem
    have hc : mapGet l.counts k = none := by
      by_contra hc
      exact hmem ((mem_mapKeys_iff _ _).2 hc)
    have hr : mapGet l.resets k = none := by
      by_contra hr
      exact h k hr hc
    rw [hf.1, hf.2]
    exact ⟨hc, hr⟩

/-- The result of lines 52-68 depends on the limiter only through `limit` and the two
entries of the subnet. -/
theorem allowSubnet_result_congr (l l' : IpLimiter) (k : String) (now₁ now₂ : Int)
    (hlim : l'.limit = l.limit) (hc : mapGet l'.counts k = mapGet l.counts k)
    (hr : mapGet l'.resets k = mapGet l.resets k) :
    (allowSubnet l' k now₁ now₂).1 = (allowSubnet l k now₁ now₂).1 := by
  have h1 : cooldownActive l' k now₁ = cooldownActive l k now₁ := by
    simp [cooldownActive, hr]
  have h2 : overLimit l' k = overLimit l k := by
    simp [overLimit, hc, hlim]
  unfold allowSubnet
  rw [h1, h2]
  split
  · rfl
  · split <;> rfl

/-! ## The subnet key of an IPv4 address -/

set_option maxRecDepth 100000 in
theorem atoiByte_ubtoa : ∀ x, x < 256 → atoiByte (ubtoa x) = x := by decide

set_option maxRecDepth 100000 in
theorem dot_not_mem_ubtoa : ∀ x, x < 256 → '.' ∉ ubtoa x := by decide

set_option maxRecDepth 100000 in
theorem cidrMask_testBit : ∀ n, n ≤ 32 → ∀ q, q < 4 → ∀ j, j < 8 →
    ((cidrMaskLoop 4 n).getD q 0).testBit j = decide (8 * q + (7 - j) < n) := by decide

set_option maxRecDepth 100000 in
theorem cidrMask_lt : ∀ n, n ≤ 32 → ∀ q, q < 4 → (cidrMaskLoop 4 n).getD q 0 < 256 := by decide


set_option maxRecDepth 100000 in
theorem simpleMaskLength_cidrMask : ∀ n, n ≤ 32 →
    simpleMaskLength (cidrMaskLoop 4 n) = (n : Int) := by decide

set_option maxRecDepth 100000 in
theorem cidrMaskLoop_length : ∀ n, n ≤ 32 → (cidrMaskLoop 4 n).length = 4 := by decide

theorem CIDRMask_eq (n : Nat) (hn : n ≤ 32) : CIDRMask (n : Int) 32 = cidrMaskLoop 4 n := by
  unfold CIDRMask
  have h1 : ¬ ((32 : Int) ≠ 32 ∧ (32 : Int) ≠ 128) := by decide
  have h2 : ¬ ((n : Int) < 0 ∨ (n : Int) > 32) := by omega
  rw [if_neg h1, if_neg h2]
  rfl

theorem IP_Mask_v4 (a₀ a₁ a₂ a₃ : Nat) (m : List Nat) (hm : m.length = 4) :
    IP_Mask (v4InV6Prefix ++ [a₀, a₁, a₂, a₃]) m =
      List.zipWith (fun a b => a &&& b) [a₀, a₁, a₂, a₃] m := by
  simp [IP_Mask, v4InV6Prefix, hm]

theorem IPNet_String_v4 (v6 : NetV6) (ip m : List Nat) (n : Nat) (hip : ip.length = 4)
    (hm : m.length = 4) (hl : simpleMaskLength m = (n : Int)) :
    IPNet_String v6 ip m = dottedQuad ip ++ "/" ++ uitoa n := by
  have h4 : To4 ip = ip := by simp [To4, hip]
  have hne : ip ≠ [] := by intro h; rw [h] at hip; cases hip
  have hnl : (n : Int) ≠ -1 := by omega
  simp [IPNet_String, networkNumberAndMask, h4, hne, hip, hm, hl, hnl, IP_String]

theorem subnetOf_v4 (v6 : NetV6) (n : Nat) (hn : n ≤ 32) (a₀ a₁ a₂ a₃ : Nat) :
    subnetOf v6 (n : Int) (v4InV6Prefix ++ [a₀, a₁, a₂, a₃]) =
      dottedQuad (List.zipWith (fun a b => a &&& b) [a₀, a₁, a₂, a₃] (cidrMaskLoop 4 n)) ++
        "/" ++ uitoa n := by
  unfold subnetOf
  rw [CIDRMask_eq n hn, IP_Mask_v4 _ _ _ _ _ (cidrMaskLoop_length n hn)]
  exact IPNet_String_v4 v6 _ _ n (by simp [cidrMaskLoop_length n hn])
    (cidrMaskLoop_length n hn) (simpleMaskLength_cidrMask n hn)


theorem append_sep_inj {α : Type} (sep : α) : ∀ (u u' r r' : List α),
    sep ∉ u → sep ∉ u' → u ++ sep :: r = u' ++ sep :: r' → u = u' ∧ r = r' := by
  intro u
  induction u with
  | nil =>
    intro u' r r' _ hu' h
    cases u' with
    | nil => simpa using h
    | cons x xs =>
      simp only [List.nil_append, List.cons_append, List.cons.injEq] at h
      exact absurd (by rw [h.1]; exact List.mem_cons_self x xs) hu'
  | cons y ys ih =>
    intro u' r r' hu hu' h
    cases u' with
    | nil =>
      simp only [List.nil_append, List.cons_append, List.cons.injEq] at h
      exact absurd (by rw [← h.1]; exact List.mem_cons_self y ys) hu
    | cons x xs =>
      simp only [List.cons_append, List.cons.injEq] at h
      have := ih xs r r' (fun hm => hu (List.mem_cons_of_mem y hm))
        (fun hm => hu' (List.mem_cons_of_mem x hm)) h.2
      exact ⟨by rw [h.1, this.1], this.2⟩

theorem ubtoa_inj (x y : Nat) (hx : x < 256) (hy : y < 256) (h : ubtoa x = ubtoa y) :
    x = y := by
  rw [← atoiByte_ubtoa x hx, ← atoiByte_ubtoa y hy, h]

theorem dottedQuad_inj (x₀ x₁ x₂ x₃ y₀ y₁ y₂ y₃ : Nat)
    (hx₀ : x₀ < 256) (hx₁ : x₁ < 256) (hx₂ : x₂ < 256) (hx₃ : x₃ < 256)
    (hy₀ : y₀ < 256) (hy₁ : y₁ < 256) (hy₂ : y₂ < 256) (hy₃ : y₃ < 256)
    (h : dottedQuad [x₀, x₁, x₂, x₃] = dottedQuad [y₀, y₁, y₂, y₃]) :
    [x₀, x₁, x₂, x₃] = [y₀, y₁, y₂, y₃] := by
  unfold dottedQuad at h
  have h' := congrArg String.data h
  simp only [List.getD_cons_zero, List.getD_cons_succ] at h'
  obtain ⟨e₀, h₁⟩ := append_sep_inj '.' _ _ _ _ (dot_not_mem_ubtoa x₀ hx₀)
    (dot_not_mem_ubtoa y₀ hy₀) h'
  obtain ⟨e₁, h₂⟩ := append_sep_inj '.' _ _ _ _ (dot_not_mem_ubtoa x₁ hx₁)
    (dot_not_mem_ubtoa y₁ hy₁) h₁
  obtain ⟨e₂, e₃⟩ := append_sep_inj '.' _ _ _ _ (dot_not_mem_ubtoa x₂ hx₂)
    (dot_not_mem_ubtoa y₂ hy₂) h₂
  rw [ubtoa_inj _ _ hx₀ hy₀ e₀, ubtoa_inj _ _ hx₁ hy₁ e₁, ubtoa_inj _ _ hx₂ hy₂ e₂,
    ubtoa_inj _ _ hx₃ hy₃ e₃]

theorem land_eq_iff (a b m : Nat) :
    a &&& m = b &&& m ↔ ∀ j, m.testBit j = true → a.testBit j = b.testBit j := by
  constructor
  · intro h j hj
    have := congrArg (fun x => x.testBit j) h
    simpa [Nat.testBit_and, hj] using this
  · intro h
    apply Nat.eq_of_testBit_eq
    intro j
    rw [Nat.testBit_and, Nat.testBit_and]
    cases hm : m.testBit j with
    | false => simp
    | true => rw [h j hm]

theorem cidrMask_testBit_iff (n : Nat) (hn : n ≤ 32) (q : Nat) (hq : q < 4) (j : Nat) :
    ((cidrMaskLoop 4 n).getD q 0).testBit j = true ↔ j < 8 ∧ 8 * q + (7 - j) < n := by
  by_cases hj : j < 8
  · rw [cidrMask_testBit n hn q hq j hj]
    simp [hj]
  · have hlt := cidrMask_lt n hn q hq
    have hpow : (cidrMaskLoop 4 n).getD q 0 < 2 ^ j :=
      lt_of_lt_of_le hlt (by
        calc 256 = 2 ^ 8 := by norm_num
          _ ≤ 2 ^ j := Nat.pow_le_pow_right (by norm_num) (by omega))
    rw [Nat.testBit_lt_two_pow hpow]
    simp [hj]

theorem masked_eq_iff (n : Nat) (hn : n ≤ 32) (x y : List Nat) :
    (∀ q, q < 4 → x.getD q 0 &&& (cidrMaskLoop 4 n).getD q 0 =
      y.getD q 0 &&& (cidrMaskLoop 4 n).getD q 0) ↔ sameLeadingBits n x y := by
  constructor
  · intro h i hi
    have hq : i / 8 < 4 := by omega
    have hbit := (cidrMask_testBit_iff n hn (i / 8) hq (7 - i % 8)).2 ⟨by omega, by omega⟩
    exact (land_eq_iff _ _ _).1 (h (i / 8) hq) (7 - i % 8) hbit
  · intro h q hq
    rw [land_eq_iff]
    intro j hj
    obtain ⟨hj8, hlt⟩ := (cidrMask_testBit_iff n hn q hq j).1 hj
    have := h (8 * q + (7 - j)) hlt
    unfold addrBit at this
    have e1 : (8 * q + (7 - j)) / 8 = q := by omega
    have e2 : 7 - (8 * q + (7 - j)) % 8 = j := by omega
    rw [e1, e2] at this
    exact this


theorem list_of_length_four (l : List Nat) (h : l.length = 4) :
    ∃ m₀ m₁ m₂ m₃, l = [m₀, m₁, m₂, m₃] := by
  match l, h with
  | [m₀, m₁, m₂, m₃], _ => exact ⟨m₀, m₁, m₂, m₃, rfl⟩

theorem subnetText_eq_iff (n : Nat) (hn : n ≤ 32) (a₀ a₁ a₂ a₃ b₀ b₁ b₂ b₃ : Nat) :
    dottedQuad (List.zipWith (fun a b => a &&& b) [a₀, a₁, a₂, a₃] (cidrMaskLoop 4 n)) ++
        "/" ++ uitoa n =
      dottedQuad (List.zipWith (fun a b => a &&& b) [b₀, b₁, b₂, b₃] (cidrMaskLoop 4 n)) ++
        "/" ++ uitoa n ↔
    sameLeadingBits n [a₀, a₁, a₂, a₃] [b₀, b₁, b₂, b₃] := by
  obtain ⟨m₀, m₁, m₂, m₃, hM⟩ := list_of_length_four _ (cidrMaskLoop_length n hn)
  have hm₀ : m₀ < 256 := by simpa [hM] using cidrMask_lt n hn 0 (by norm_num)
  have hm₁ : m₁ < 256 := by simpa [hM] using cidrMask_lt n hn 1 (by norm_num)
  have hm₂ : m₂ < 256 := by simpa [hM] using cidrMask_lt n hn 2 (by norm_num)
  have hm₃ : m₃ < 256 := by simpa [hM] using cidrMask_lt n hn 3 (by norm_num)
  have hbits := masked_eq_iff n hn [a₀, a₁, a₂, a₃] [b₀, b₁, b₂, b₃]
  rw [hM] at hbits ⊢
  rw [← hbits]
  simp only [List.zipWith_cons_cons, List.zipWith_nil_right]
  constructor
  · intro h
    have hd := congrArg String.data h
    simp only [String.data_append] at hd
    have hq := dottedQuad_inj _ _ _ _ _ _ _ _
      (lt_of_le_of_lt Nat.and_le_right hm₀) (lt_of_le_of_lt Nat.and_le_right hm₁)
      (lt_of_le_of_lt Nat.and_le_right hm₂) (lt_of_le_of_lt Nat.and_le_right hm₃)
      (lt_of_le_of_lt Nat.and_le_right hm₀) (lt_of_le_of_lt Nat.and_le_right hm₁)
      (lt_of_le_of_lt Nat.and_le_right hm₂) (lt_of_le_of_lt Nat.and_le_right hm₃)
      (String.ext (List.append_cancel_right (List.append_cancel_right hd)))
    simp only [List.cons.injEq, and_true] at hq
    intro q hq4
    interval_cases q
    · simpa using hq.1
    · simpa using hq.2.1
    · simpa using hq.2.2.1
    · simpa using hq.2.2.2
  · intro h
    have e₀ := h 0 (by norm_num)
    have e₁ := h 1 (by norm_num)
    have e₂ := h 2 (by norm_num)
    have e₃ := h 3 (by norm_num)
    simp only [List.getD_cons_zero, List.getD_cons_succ] at e₀ e₁ e₂ e₃
    rw [e₀, e₁, e₂, e₃]

theorem parseIPv4Loop_some : ∀ (cs : List Char) (prev : Option Char) (fields : List Nat)
    (val digLen : Nat) (r : List Nat),
    parseIPv4Loop cs prev fields val digLen = some r →
    (∀ c ∈ cs, ('0' ≤ c ∧ c ≤ '9') ∨ c = '.') ∧ (fields.length < 3 → '.' ∈ cs) ∧
    (fields.length ≤ 3 → r.length = 4) ∧
    ((∀ x ∈ fields, x ≤ 255) → val ≤ 255 → ∀ x ∈ r, x ≤ 255) := by
  intro cs
  induction cs with
  | nil =>
    intro prev fields val digLen r h
    unfold parseIPv4Loop at h
    split at h
    · cases h
    · rename_i hlen
      simp only [Option.some.injEq] at h
      subst h
      refine ⟨by simp, fun hl => absurd hl hlen, fun hl => by simp; omega, ?_⟩
      intro hf hv x hx
      rcases List.mem_append.1 hx with hx | hx
      · exact hf x hx
      · simp only [List.mem_singleton] at hx; rw [hx]; exact hv
  | cons c rest ih =>
    intro prev fields val digLen r h
    unfold parseIPv4Loop at h
    split at h
    · rename_i hdig
      split at h
      · cases h
      · split at h
        · cases h
        · rename_i hval
          obtain ⟨h1, h2, h3, h4⟩ := ih _ _ _ _ _ h
          refine ⟨?_, fun hl => List.mem_cons_of_mem c (h2 hl), h3, ?_⟩
          · intro x hx
            rcases List.mem_cons.1 hx with hx | hx
            · rw [hx]; exact Or.inl hdig
            · exact h1 x hx
          · intro hf _
            exact h4 hf (by omega)
    · split at h
      · rename_i hdot
        split at h
        · cases h
        · split at h
          · cases h
          · rename_i hlen
            obtain ⟨h1, h2, h3, h4⟩ := ih _ _ _ _ _ h
            refine ⟨?_, fun _ => by rw [hdot]; exact List.mem_cons_self _ _, ?_, ?_⟩
            · intro x hx
              rcases List.mem_cons.1 hx with hx | hx
              · rw [hx]; exact Or.inr hdot
              · exact h1 x hx
            · intro hl
              apply h3
              simp only [List.length_append, List.length_singleton]
              omega
            · intro hf hv
              apply h4 _ (by omega)
              intro x hx
              rcases List.mem_append.1 hx with hx | hx
              · exact hf x hx
              · simp only [List.mem_singleton] at hx; rw [hx]; exact hv
      · cases h

theorem parseAddrScan_dotted (v6 : NetV6) (s : String) : ∀ (cs : List Char),
    (∀ c ∈ cs, ('0' ≤ c ∧ c ≤ '9') ∨ c = '.') → '.' ∈ cs →
    parseAddrScan v6 s cs = (parseIPv4 s).map (fun b => v4InV6Prefix ++ b) := by
  intro cs
  induction cs with
  | nil => intro _ h; cases h
  | cons c rest ih =>
    intro hall hmem
    unfold parseAddrScan
    by_cases hc : c = '.'
    · rw [if_pos hc]
    · rw [if_neg hc]
      have hdig : '0' ≤ c ∧ c ≤ '9' := by
        rcases hall c (List.mem_cons_self c rest) with h | h
        · exact h
        · exact absurd h hc
      have h1 : c ≠ ':' := by
        intro h; rw [h] at hdig; exact absurd hdig.2 (by decide)
      have h2 : c ≠ '%' := by
        intro h; rw [h] at hdig; exact absurd hdig.1 (by decide)
      rw [if_neg h1, if_neg h2]
      apply ih (fun x hx => hall x (List.mem_cons_of_mem c hx))
      rcases List.mem_cons.1 hmem with h | h
      · exact absurd h.symm hc
      · exact h

/-- A text that `parseIPv4` accepts has four octets, each at most 255, and `net.ParseIP`
returns them behind the IPv4-in-IPv6 prefix. -/
theorem ParseIP_of_parseIPv4 (v6 : NetV6) (s : String) (bs : List Nat)
    (h : parseIPv4 s = some bs) :
    ParseIP v6 s = some (v4InV6Prefix ++ bs) ∧ bs.length = 4 ∧ ∀ x ∈ bs, x ≤ 255 := by
  obtain ⟨h1, h2, h3, h4⟩ := parseIPv4Loop_some _ _ _ _ _ _ h
  refine ⟨?_, h3 (by simp), h4 (by simp) (by omega)⟩
  unfold ParseIP
  rw [parseAddrScan_dotted v6 s s.data h1 (h2 (by simp)), h]
  rfl

/-- The increment of `main.go:67` stays in the range of a 64-bit `int`: if `limit` and
every stored count are in that range before a call, every stored count is after it. -/
theorem Allow_count_in_range (v6 : NetV6) (l : IpLimiter) (ip : String) (now₁ now₂ : Int)
    (hlim : l.limit ≤ 2 ^ 63 - 1)
    (hc : ∀ k c, mapGet l.counts k = some c → -2 ^ 63 ≤ c ∧ c ≤ 2 ^ 63 - 1) :
    ∀ k c, mapGet (Allow v6 l ip now₁ now₂).2.counts k = some c →
      -2 ^ 63 ≤ c ∧ c ≤ 2 ^ 63 - 1 := by
  intro k c hk
  cases hkey : subnetKey v6 l.prefixLen ip with
  | none => rw [Allow_of_subnetKey_none v6 l ip now₁ now₂ hkey] at hk; exact hc k c hk
  | some k₀ =>
    rw [Allow_of_subnetKey v6 l ip k₀ now₁ now₂ hkey] at hk
    by_cases hne : k = k₀
    · subst hne
      cases hact : cooldownActive l k now₁ with
      | true => rw [allowSubnet_blocked l k _ _ hact] at hk; exact hc k c hk
      | false =>
        cases hov : overLimit l k with
        | true =>
          rw [allowSubnet_arm l k _ _ hact hov] at hk
          have : mapGet (mapSet l.counts k 0) k = some c := hk
          rw [mapGet_mapSet_self] at this
          cases this
          constructor <;> norm_num
        | false =>
          rw [allowSubnet_admits l k _ _ hact hov] at hk
          have : mapGet (mapSet l.counts k ((mapGet l.counts k).getD 0 + 1)) k = some c := hk
          rw [mapGet_mapSet_self] at this
          cases this
          cases hg : mapGet l.counts k with
          | none => constructor <;> norm_num
          | some c₀ =>
            have h1 := hc k c₀ hg
            have h2 := (overLimit_false_iff l k).1 hov c₀ hg
            simp only [Option.getD_some]
            constructor <;> omega
    · rw [(allowSubnet_frame l k₀ k now₁ now₂ hne).1] at hk
      exact hc k c hk

/-! ## Properties of the limiter -/

/-- C1: with a limit `L ≥ 1` and a subnet key `k` that has no entry in the limiter,
any `L + 1` consecutive calls of `Allow` whose addresses parse and have the subnet key
`k`, at any clock readings, return `true` for the first `L` calls and `false` for the
last one. -/
theorem first_calls_admitted_next_rejected (v6 : NetV6) (l : IpLimiter) (k : String)
    (cs : List Call) (hL : 1 ≤ l.limit)
    (hc : mapGet l.counts k = none) (hr : mapGet l.resets k = none)
    (hk : ∀ c ∈ cs, callKey v6 l.prefixLen c = some k)
    (hlen : (cs.length : Int) = l.limit + 1) :
    results v6 l cs = List.replicate l.limit.toNat true ++ [false] := by
  have hn := callsFor_of_all v6 k l.prefixLen cs hk
  have h := admit_then_reject v6 k cs l
    (by intro c _ _ u hu; rw [hr] at hu; cases hu)
    (fun _ => hL) (by rw [hc]; simp; omega) (by rw [hc, hn]; simpa using hlen)
  rw [resultsFor_of_all v6 k cs l hk, hn] at h
  rw [h]
  congr 2
  omega

/-- C1, on three calls from 192.0.2.0/24 with limit 2. -/
theorem first_calls_admitted_next_rejected_witness :
    results v4only (NewIpLimiter 24 2 1000000000)
      [⟨"192.0.2.1", 0, 0⟩, ⟨"192.0.2.254", 5, 6⟩, ⟨"192.0.2.77", 7000000000, 7000000001⟩] =
      List.replicate (2 : Int).toNat true ++ [false] :=
  first_calls_admitted_next_rejected v4only (NewIpLimiter 24 2 1000000000) "192.0.2.0/24"
    [⟨"192.0.2.1", 0, 0⟩, ⟨"192.0.2.254", 5, 6⟩, ⟨"192.0.2.77", 7000000000, 7000000001⟩]
    (by decide) rfl rfl (by decide) (by decide)

/-- C2: with a limit `L ≥ 1`, after a call `c₀` that arms the cooldown of the subnet `k`
at `t = c₀.now₂`, and whatever calls for `k` were rejected before `t + cooldown`
(the calls `during`), the calls for `k` made at readings `≥ t + cooldown` (those of
`after`, among calls for other subnets) return `true` for the first `L` of them and
`false` for the next one. -/
theorem after_cooldown_admits_limit_again (v6 : NetV6) (l₀ : IpLimiter) (c₀ : Call)
    (k : String) (during after : List Call) (hL : 1 ≤ l₀.limit)
    (harm : armsCooldown v6 l₀ c₀ k)
    (hduring : ∀ c ∈ during, callKey v6 l₀.prefixLen c = some k →
      c.now₁ < c₀.now₂ + l₀.cooldown)
    (hafter : ∀ c ∈ after, callKey v6 l₀.prefixLen c = some k →
      c₀.now₂ + l₀.cooldown ≤ c.now₁)
    (hn : (callsFor v6 k l₀.prefixLen after : Int) = l₀.limit + 1) :
    resultsFor v6 k (Allow v6 l₀ c₀.ip c₀.now₁ c₀.now₂).2 during =
      List.replicate (callsFor v6 k l₀.prefixLen during) false ∧
    resultsFor v6 k (runCalls v6 (Allow v6 l₀ c₀.ip c₀.now₁ c₀.now₂).2 during) after =
      List.replicate l₀.limit.toNat true ++ [false] := by
  obtain ⟨_, hres, hcnt⟩ := armsCooldown_effect v6 l₀ c₀ k harm
  have hb := blocked_phase v6 k (c₀.now₂ + l₀.cooldown) during
    (Allow v6 l₀ c₀.ip c₀.now₁ c₀.now₂).2 hres (by simpa using hduring)
  have hcfg := runCalls_config v6 during (Allow v6 l₀ c₀.ip c₀.now₁ c₀.now₂).2
  simp only [Allow_prefixLen, Allow_limit, Allow_cooldown] at hb hcfg
  refine ⟨hb.1, ?_⟩
  have h := admit_then_reject v6 k after
    (runCalls v6 (Allow v6 l₀ c₀.ip c₀.now₁ c₀.now₂).2 during)
    (by
      intro c hc hck u hu
      rw [hb.2.2] at hu
      cases hu
      rw [hcfg.1] at hck
      exact hafter c hc hck)
    (by intro h0; rw [hb.2.1, hcnt] at h0; cases h0)
    (by rw [hb.2.1, hcnt, hcfg.2.1]; simp; omega)
    (by rw [hb.2.1, hcnt, hcfg.2.1, hcfg.1]; simpa using hn)
  rw [h, hcfg.1]
  congr 2
  omega

/-- C2, with limit 2 and cooldown 100: the third call for 192.0.2.0/24 arms the cooldown
at 11, one call is rejected during the cooldown, and from 111 on two calls are admitted
and the third is rejected. -/
theorem after_cooldown_admits_limit_again_witness :
    resultsFor v4only "192.0.2.0/24"
        (Allow v4only (runCalls v4only (NewIpLimiter 24 2 100)
          [⟨"192.0.2.1", 0, 0⟩, ⟨"192.0.2.1", 1, 1⟩]) "192.0.2.1" 10 11).2
        [⟨"192.0.2.9", 50, 50⟩, ⟨"10.0.0.1", 60, 60⟩] =
      List.replicate (callsFor v4only "192.0.2.0/24" 24
        [⟨"192.0.2.9", 50, 50⟩, ⟨"10.0.0.1", 60, 60⟩]) false ∧
    resultsFor v4only "192.0.2.0/24"
        (runCalls v4only (Allow v4only (runCalls v4only (NewIpLimiter 24 2 100)
          [⟨"192.0.2.1", 0, 0⟩, ⟨"192.0.2.1", 1, 1⟩]) "192.0.2.1" 10 11).2
          [⟨"192.0.2.9", 50, 50⟩, ⟨"10.0.0.1", 60, 60⟩])
        [⟨"192.0.2.1", 111, 111⟩, ⟨"10.0.0.1", 112, 112⟩, ⟨"192.0.2.2", 200, 200⟩,
          ⟨"192.0.2.3", 300, 300⟩] =
      List.replicate (2 : Int).toNat true ++ [false] :=
  after_cooldown_admits_limit_again v4only
    (runCalls v4only (NewIpLimiter 24 2 100) [⟨"192.0.2.1", 0, 0⟩, ⟨"192.0.2.1", 1, 1⟩])
    ⟨"192.0.2.1", 10, 11⟩ "192.0.2.0/24"
    [⟨"192.0.2.9", 50, 50⟩, ⟨"10.0.0.1", 60, 60⟩]
    [⟨"192.0.2.1", 111, 111⟩, ⟨"10.0.0.1", 112, 112⟩, ⟨"192.0.2.2", 200, 200⟩,
      ⟨"192.0.2.3", 300, 300⟩]
    (by decide) ⟨by decide, by decide, by decide⟩ (by decide) (by decide) (by decide)

/-- C3: after a call `c₀` that rejects and arms the cooldown of the subnet `k` at
`t = c₀.now₂`, every later call `c` for `k` made at a reading `c.now₁ < t + cooldown`
returns `false` and leaves the whole limiter as it was; `cs` are the calls made in
between, those of them for `k` being before `t + cooldown` as well. -/
theorem during_cooldown_rejected_unchanged (v6 : NetV6) (l₀ : IpLimiter) (c₀ c : Call)
    (k : String) (cs : List Call)
    (harm : armsCooldown v6 l₀ c₀ k)
    (hcs : ∀ x ∈ cs, callKey v6 l₀.prefixLen x = some k → x.now₁ < c₀.now₂ + l₀.cooldown)
    (hc : callKey v6 l₀.prefixLen c = some k)
    (ht : c.now₁ < c₀.now₂ + l₀.cooldown) :
    (Allow v6 l₀ c₀.ip c₀.now₁ c₀.now₂).1 = false ∧
    mapGet (Allow v6 l₀ c₀.ip c₀.now₁ c₀.now₂).2.resets k = some (c₀.now₂ + l₀.cooldown) ∧
    Allow v6 (runCalls v6 (Allow v6 l₀ c₀.ip c₀.now₁ c₀.now₂).2 cs) c.ip c.now₁ c.now₂ =
      (false, runCalls v6 (Allow v6 l₀ c₀.ip c₀.now₁ c₀.now₂).2 cs) := by
  obtain ⟨hfalse, hres, _⟩ := armsCooldown_effect v6 l₀ c₀ k harm
  refine ⟨hfalse, hres, ?_⟩
  have hb := blocked_phase v6 k (c₀.now₂ + l₀.cooldown) cs
    (Allow v6 l₀ c₀.ip c₀.now₁ c₀.now₂).2 hres (by simpa using hcs)
  have hcfg := runCalls_config v6 cs (Allow v6 l₀ c₀.ip c₀.now₁ c₀.now₂).2
  simp only [Allow_prefixLen] at hcfg
  rw [Allow_of_subnetKey v6 _ c.ip k c.now₁ c.now₂ (by rw [hcfg.1]; exact hc)]
  exact allowSubnet_blocked _ k _ _
    ((cooldownActive_iff _ k c.now₁).2 ⟨_, hb.2.2, ht⟩)

/-- C3, with limit 2 and cooldown 100: the cooldown of 192.0.2.0/24 is armed at 11 and a
call at 110 is rejected without any change. -/
theorem during_cooldown_rejected_unchanged_witness :
    (Allow v4only (runCalls v4only (NewIpLimiter 24 2 100)
      [⟨"192.0.2.1", 0, 0⟩, ⟨"192.0.2.1", 1, 1⟩]) "192.0.2.1" 10 11).1 = false ∧
    mapGet (Allow v4only (runCalls v4only (NewIpLimiter 24 2 100)
      [⟨"192.0.2.1", 0, 0⟩, ⟨"192.0.2.1", 1, 1⟩]) "192.0.2.1" 10 11).2.resets
      "192.0.2.0/24" = some (11 + 100) ∧
    Allow v4only (runCalls v4only (Allow v4only (runCalls v4only (NewIpLimiter 24 2 100)
        [⟨"192.0.2.1", 0, 0⟩, ⟨"192.0.2.1", 1, 1⟩]) "192.0.2.1" 10 11).2
        [⟨"192.0.2.9", 50, 50⟩, ⟨"10.0.0.1", 60, 60⟩]) "192.0.2.200" 110 110 =
      (false, runCalls v4only (Allow v4only (runCalls v4only (NewIpLimiter 24 2 100)
        [⟨"192.0.2.1", 0, 0⟩, ⟨"192.0.2.1", 1, 1⟩]) "192.0.2.1" 10 11).2
        [⟨"192.0.2.9", 50, 50⟩, ⟨"10.0.0.1", 60, 60⟩]) :=
  during_cooldown_rejected_unchanged v4only
    (runCalls v4only (NewIpLimiter 24 2 100) [⟨"192.0.2.1", 0, 0⟩, ⟨"192.0.2.1", 1, 1⟩])
    ⟨"192.0.2.1", 10, 11⟩ ⟨"192.0.2.200", 110, 110⟩ "192.0.2.0/24"
    [⟨"192.0.2.9", 50, 50⟩, ⟨"10.0.0.1", 60, 60⟩]
    ⟨by decide, by decide, by decide⟩ (by decide) (by decide) (by decide)

/-- C4: in every state reachable from a new limiter by calls of `Allow` and resets,
after a reset with the prefix `pfx` no key that starts with `pfx` is left among the keys
of the count map, and none among the keys of the cooldown map. -/
theorem reset_removes_matching_keys (v6 : NetV6) (l : IpLimiter) (pfx k : String)
    (h : Reachable v6 l) (hk : HasPrefix k pfx = true) :
    k ∉ mapKeys (Reset l pfx).counts ∧ k ∉ mapKeys (Reset l pfx).resets := by
  have hc := Reset_clears l pfx k (resetsHaveCounts_of_reachable v6 l h) hk
  rw [mem_mapKeys_iff, mem_mapKeys_iff, hc.1, hc.2]
  simp

/-- C4, after three calls for 192.0.2.0/24 (the third arms its cooldown) and one for
10.0.0.0/24, on a reset with the prefix 192.0. -/
theorem reset_removes_matching_keys_witness :
    "192.0.2.0/24" ∉ mapKeys (Reset (runOps v4only (NewIpLimiter 24 2 100)
      [Op.allow "192.0.2.1" 0 0, Op.allow "192.0.2.1" 1 1, Op.allow "192.0.2.1" 2 2,
        Op.allow "10.0.0.1" 3 3]) "192.0.").counts ∧
    "192.0.2.0/24" ∉ mapKeys (Reset (runOps v4only (NewIpLimiter 24 2 100)
      [Op.allow "192.0.2.1" 0 0, Op.allow "192.0.2.1" 1 1, Op.allow "192.0.2.1" 2 2,
        Op.allow "10.0.0.1" 3 3]) "192.0.").resets :=
  reset_removes_matching_keys v4only
    (runOps v4only (NewIpLimiter 24 2 100)
      [Op.allow "192.0.2.1" 0 0, Op.allow "192.0.2.1" 1 1, Op.allow "192.0.2.1" 2 2,
        Op.allow "10.0.0.1" 3 3])
    "192.0." "192.0.2.0/24" ⟨24, 2, 100, _, rfl⟩ (by decide)

/-- C5: in every reachable state, for every prefix `pfx` and every address that parses
and whose subnet key `k` starts with `pfx`, the first call for `k` after a reset with
`pfx` (calls `cs` for other keys may come in between) returns `true` at any clock
reading and leaves `k` with the count 1 and no cooldown entry. -/
theorem first_call_after_reset_admitted (v6 : NetV6) (l : IpLimiter) (pfx ip k : String)
    (cs : List Call) (now₁ now₂ : Int)
    (h : Reachable v6 l) (hip : subnetKey v6 l.prefixLen ip = some k)
    (hk : HasPrefix k pfx = true)
    (hcs : ∀ c ∈ cs, callKey v6 l.prefixLen c ≠ some k) :
    (Allow v6 (runCalls v6 (Reset l pfx) cs) ip now₁ now₂).1 = true ∧
    mapGet (Allow v6 (runCalls v6 (Reset l pfx) cs) ip now₁ now₂).2.counts k = some 1 ∧
    mapGet (Allow v6 (runCalls v6 (Reset l pfx) cs) ip now₁ now₂).2.resets k = none := by
  have hclr := Reset_clears l pfx k (resetsHaveCounts_of_reachable v6 l h) hk
  have hpl : (Reset l pfx).prefixLen = l.prefixLen := (resetLoop_config pfx _ l).1
  have hf := runCalls_frame v6 k cs (Reset l pfx) (by rw [hpl]; exact hcs)
  have hcfg := runCalls_config v6 cs (Reset l pfx)
  rw [hclr.1] at hf
  rw [hclr.2] at hf
  have hact : cooldownActive (runCalls v6 (Reset l pfx) cs) k now₁ = false := by
    simp [cooldownActive, hf.2]
  have hov : overLimit (runCalls v6 (Reset l pfx) cs) k = false := by
    simp [overLimit, hf.1]
  rw [Allow_of_subnetKey v6 _ ip k now₁ now₂ (by rw [hcfg.1, hpl]; exact hip),
    allowSubnet_admits _ k _ _ hact hov]
  refine ⟨rfl, ?_, hf.2⟩
  show mapGet (mapSet _ k _) k = some 1
  rw [mapGet_mapSet_self, hf.1]
  rfl

/-- C5, with limit 2 and cooldown 100: 192.0.2.0/24 is in a cooldown armed at 2, a reset
with the prefix 192.0. is made, and a call for it at 3 is admitted. -/
theorem first_call_after_reset_admitted_witness :
    (Allow v4only (runCalls v4only (Reset (runOps v4only (NewIpLimiter 24 2 100)
      [Op.allow "192.0.2.1" 0 0, Op.allow "192.0.2.1" 1 1, Op.allow "192.0.2.1" 2 2])
      "192.0.") [⟨"10.0.0.1", 3, 3⟩]) "192.0.2.7" 3 3).1 = true ∧
    mapGet (Allow v4only (runCalls v4only (Reset (runOps v4only (NewIpLimiter 24 2 100)
      [Op.allow "192.0.2.1" 0 0, Op.allow "192.0.2.1" 1 1, Op.allow "192.0.2.1" 2 2])
      "192.0.") [⟨"10.0.0.1", 3, 3⟩]) "192.0.2.7" 3 3).2.counts "192.0.2.0/24" = some 1 ∧
    mapGet (Allow v4only (runCalls v4only (Reset (runOps v4only (NewIpLimiter 24 2 100)
      [Op.allow "192.0.2.1" 0 0, Op.allow "192.0.2.1" 1 1, Op.allow "192.0.2.1" 2 2])
      "192.0.") [⟨"10.0.0.1", 3, 3⟩]) "192.0.2.7" 3 3).2.resets "192.0.2.0/24" = none :=
  first_call_after_reset_admitted v4only
    (runOps v4only (NewIpLimiter 24 2 100)
      [Op.allow "192.0.2.1" 0 0, Op.allow "192.0.2.1" 1 1, Op.allow "192.0.2.1" 2 2])
    "192.0." "192.0.2.7" "192.0.2.0/24" [⟨"10.0.0.1", 3, 3⟩] 3 3
    ⟨24, 2, 100, _, rfl⟩ (by decide) (by decide) (by decide)

/-- C6: a reset with the prefix `pfx` leaves the count and the cooldown entry of every
key that does not start with `pfx` as they were, and when no key of the count map
starts with `pfx` the limiter after the reset is the limiter before it. -/
theorem reset_leaves_other_keys (l : IpLimiter) (pfx : String) :
    (∀ k, HasPrefix k pfx = false →
      mapGet (Reset l pfx).counts k = mapGet l.counts k ∧
      mapGet (Reset l pfx).resets k = mapGet l.resets k) ∧
    ((∀ k ∈ mapKeys l.counts, HasPrefix k pfx = false) → Reset l pfx = l) :=
  ⟨fun k hk => resetLoop_frame pfx k hk (mapKeys l.counts) l,
    fun h => resetLoop_of_no_match pfx (mapKeys l.counts) l h⟩

/-- C6, after calls for 192.0.2.0/24 and 10.0.0.0/24: a reset with the prefix 10. keeps
the entries of 192.0.2.0/24, and a reset with the prefix 172. changes nothing. -/
theorem reset_leaves_other_keys_witness :
    (mapGet (Reset (runCalls v4only (NewIpLimiter 24 2 100)
        [⟨"192.0.2.1", 0, 0⟩, ⟨"10.0.0.1", 1, 1⟩]) "10.").counts "192.0.2.0/24" =
      mapGet (runCalls v4only (NewIpLimiter 24 2 100)
        [⟨"192.0.2.1", 0, 0⟩, ⟨"10.0.0.1", 1, 1⟩]).counts "192.0.2.0/24" ∧
     mapGet (Reset (runCalls v4only (NewIpLimiter 24 2 100)
        [⟨"192.0.2.1", 0, 0⟩, ⟨"10.0.0.1", 1, 1⟩]) "10.").resets "192.0.2.0/24" =
      mapGet (runCalls v4only (NewIpLimiter 24 2 100)
        [⟨"192.0.2.1", 0, 0⟩, ⟨"10.0.0.1", 1, 1⟩]).resets "192.0.2.0/24") ∧
    Reset (runCalls v4only (NewIpLimiter 24 2 100)
        [⟨"192.0.2.1", 0, 0⟩, ⟨"10.0.0.1", 1, 1⟩]) "172." =
      runCalls v4only (NewIpLimiter 24 2 100) [⟨"192.0.2.1", 0, 0⟩, ⟨"10.0.0.1", 1, 1⟩] :=
  ⟨(reset_leaves_other_keys (runCalls v4only (NewIpLimiter 24 2 100)
      [⟨"192.0.2.1", 0, 0⟩, ⟨"10.0.0.1", 1, 1⟩]) "10.").1 "192.0.2.0/24" (by decide),
    (reset_leaves_other_keys (runCalls v4only (NewIpLimiter 24 2 100)
      [⟨"192.0.2.1", 0, 0⟩, ⟨"10.0.0.1", 1, 1⟩]) "172.").2 (by decide)⟩

/-- C7 on the code, with limit 2 and a cooldown of one second: after two admitted calls
of a new subnet at 0 and 1, the next call, ten seconds later, is rejected. -/
theorem call_after_idle_period_rejected :
    results v4only (NewIpLimiter 24 2 1000000000)
      [⟨"192.0.2.1", 0, 0⟩, ⟨"192.0.2.1", 1, 1⟩,
        ⟨"192.0.2.1", 10000000001, 10000000001⟩] = [true, true, false] := by
  decide

/-- C8 as stated fails: with limit 1, the first call of a new subnet makes its count
equal to the limit, is admitted, leaves the count at 1 and arms no cooldown. -/
theorem count_reaches_limit_without_cooldown :
    (Allow v4only (NewIpLimiter 24 1 100) "192.0.2.1" 0 0).1 = true ∧
    mapGet (Allow v4only (NewIpLimiter 24 1 100) "192.0.2.1" 0 0).2.counts "192.0.2.0/24" =
      some (NewIpLimiter 24 1 100).limit ∧
    mapGet (Allow v4only (NewIpLimiter 24 1 100) "192.0.2.1" 0 0).2.resets "192.0.2.0/24" =
      none := by
  decide

/-- C8, amended: the call `c₁` that is admitted and makes the count of the subnet `k`
equal to `limit` leaves the cooldown entry of `k` as it was; the next call `c₂` for `k`
(calls `cs` for other keys may come in between, and the clock does not go back) returns
`false` and, in that one step, sets the cooldown entry of `k` to `c₂.now₂ + cooldown`
and its count to 0. -/
theorem count_at_limit_armed_by_next_call (v6 : NetV6) (l : IpLimiter) (c₁ c₂ : Call)
    (k : String) (cs : List Call)
    (hk₁ : callKey v6 l.prefixLen c₁ = some k)
    (hadm : (Allow v6 l c₁.ip c₁.now₁ c₁.now₂).1 = true)
    (hcount : mapGet (Allow v6 l c₁.ip c₁.now₁ c₁.now₂).2.counts k = some l.limit)
    (hcs : ∀ x ∈ cs, callKey v6 l.prefixLen x ≠ some k)
    (hk₂ : callKey v6 l.prefixLen c₂ = some k)
    (ht : c₁.now₁ ≤ c₂.now₁) :
    mapGet (Allow v6 l c₁.ip c₁.now₁ c₁.now₂).2.resets k = mapGet l.resets k ∧
    (Allow v6 (runCalls v6 (Allow v6 l c₁.ip c₁.now₁ c₁.now₂).2 cs)
      c₂.ip c₂.now₁ c₂.now₂).1 = false ∧
    mapGet (Allow v6 (runCalls v6 (Allow v6 l c₁.ip c₁.now₁ c₁.now₂).2 cs)
      c₂.ip c₂.now₁ c₂.now₂).2.resets k = some (c₂.now₂ + l.cooldown) ∧
    mapGet (Allow v6 (runCalls v6 (Allow v6 l c₁.ip c₁.now₁ c₁.now₂).2 cs)
      c₂.ip c₂.now₁ c₂.now₂).2.counts k = some 0 := by
  have hA := Allow_of_subnetKey v6 l c₁.ip k c₁.now₁ c₁.now₂ hk₁
  have hact : cooldownActive l k c₁.now₁ = false := by
    cases hb : cooldownActive l k c₁.now₁ with
    | false => rfl
    | true => rw [hA, allowSubnet_blocked l k _ _ hb] at hadm; cases hadm
  have hov : overLimit l k = false := by
    cases hb : overLimit l k with
    | false => rfl
    | true => rw [hA, allowSubnet_arm l k _ _ hact hb] at hadm; cases hadm
  have hres : mapGet (Allow v6 l c₁.ip c₁.now₁ c₁.now₂).2.resets k = mapGet l.resets k := by
    rw [hA, allowSubnet_admits l k _ _ hact hov]
  have hf := runCalls_frame v6 k cs (Allow v6 l c₁.ip c₁.now₁ c₁.now₂).2
    (by simpa using hcs)
  have hcfg := runCalls_config v6 cs (Allow v6 l c₁.ip c₁.now₁ c₁.now₂).2
  simp only [Allow_prefixLen, Allow_limit, Allow_cooldown] at hcfg
  have harm : armsCooldown v6 (runCalls v6 (Allow v6 l c₁.ip c₁.now₁ c₁.now₂).2 cs) c₂ k := by
    refine ⟨by rw [hcfg.1]; exact hk₂, ?_, ?_⟩
    · apply cooldownActive_false_of
      intro u hu
      rw [hf.2, hres] at hu
      have hle : u ≤ c₁.now₁ := by
        by_contra hlt
        have : cooldownActive l k c₁.now₁ = true :=
          (cooldownActive_iff l k c₁.now₁).2 ⟨u, hu, by omega⟩
        rw [hact] at this
        cases this
      omega
    · exact (overLimit_iff _ k).2 ⟨l.limit, by rw [hf.1, hcount], by rw [hcfg.2.1]⟩
  have he := armsCooldown_effect v6 _ c₂ k harm
  rw [hcfg.2.2] at he
  exact ⟨hres, he⟩

/-- C8 amended, with limit 2 and cooldown 100: the second call makes the count 2 and arms
nothing, and the third call, at 7, is rejected, arms the cooldown until 108 and sets the
count to 0. -/
theorem count_at_limit_armed_by_next_call_witness :
    mapGet (Allow v4only (Allow v4only (NewIpLimiter 24 2 100) "192.0.2.1" 0 0).2
      "192.0.2.2" 1 1).2.resets "192.0.2.0/24" =
      mapGet (Allow v4only (NewIpLimiter 24 2 100) "192.0.2.1" 0 0).2.resets "192.0.2.0/24" ∧
    (Allow v4only (runCalls v4only (Allow v4only
      (Allow v4only (NewIpLimiter 24 2 100) "192.0.2.1" 0 0).2 "192.0.2.2" 1 1).2
      [⟨"10.0.0.1", 2, 2⟩]) "192.0.2.3" 7 8).1 = false ∧
    mapGet (Allow v4only (runCalls v4only (Allow v4only
      (Allow v4only (NewIpLimiter 24 2 100) "192.0.2.1" 0 0).2 "192.0.2.2" 1 1).2
      [⟨"10.0.0.1", 2, 2⟩]) "192.0.2.3" 7 8).2.resets "192.0.2.0/24" = some (8 + 100) ∧
    mapGet (Allow v4only (runCalls v4only (Allow v4only
      (Allow v4only (NewIpLimiter 24 2 100) "192.0.2.1" 0 0).2 "192.0.2.2" 1 1).2
      [⟨"10.0.0.1", 2, 2⟩]) "192.0.2.3" 7 8).2.counts "192.0.2.0/24" = some 0 :=
  count_at_limit_armed_by_next_call v4only
    (Allow v4only (NewIpLimiter 24 2 100) "192.0.2.1" 0 0).2
    ⟨"192.0.2.2", 1, 1⟩ ⟨"192.0.2.3", 7, 8⟩ "192.0.2.0/24" [⟨"10.0.0.1", 2, 2⟩]
    (by decide) (by decide) (by decide) (by decide) (by decide) (by decide)

/-- C9: for a prefix length in [0,32] and two address texts `a` and `b` that
`net.ParseIP` reads as the IPv4 addresses `a₀.a₁.a₂.a₃` and `b₀.b₁.b₂.b₃` (every dotted
quad `parseIPv4` accepts is such a text, `ParseIP_of_parseIPv4`), the subnet key `Allow`
computes for `a` is the one it computes for `b` if and only if the two addresses agree
on their first `prefixLen` bits; and the key is the dotted text of the address masked
with the CIDR mask, followed by `/` and the prefix length. -/
theorem subnet_key_iff_same_leading_bits (v6 : NetV6) (prefixLen : Int) (a b : String)
    (a₀ a₁ a₂ a₃ b₀ b₁ b₂ b₃ : Nat) (hp₀ : 0 ≤ prefixLen) (hp₁ : prefixLen ≤ 32)
    (ha : ParseIP v6 a = some (v4InV6Prefix ++ [a₀, a₁, a₂, a₃]))
    (hb : ParseIP v6 b = some (v4InV6Prefix ++ [b₀, b₁, b₂, b₃])) :
    (subnetKey v6 prefixLen a = subnetKey v6 prefixLen b ↔
      sameLeadingBits prefixLen.toNat [a₀, a₁, a₂, a₃] [b₀, b₁, b₂, b₃]) ∧
    subnetKey v6 prefixLen a =
      some (dottedQuad (List.zipWith (fun x m => x &&& m) [a₀, a₁, a₂, a₃]
        (CIDRMask prefixLen 32)) ++ "/" ++ uitoa prefixLen.toNat) := by
  obtain ⟨n, rfl⟩ := Int.eq_ofNat_of_zero_le hp₀
  have hn : n ≤ 32 := by exact_mod_cast hp₁
  have hka : subnetKey v6 (n : Int) a = some (subnetOf v6 (n : Int)
      (v4InV6Prefix ++ [a₀, a₁, a₂, a₃])) := by simp [subnetKey, ha]
  have hkb : subnetKey v6 (n : Int) b = some (subnetOf v6 (n : Int)
      (v4InV6Prefix ++ [b₀, b₁, b₂, b₃])) := by simp [subnetKey, hb]
  rw [hka, hkb, subnetOf_v4 v6 n hn, subnetOf_v4 v6 n hn, CIDRMask_eq n hn, Int.toNat_ofNat]
  refine ⟨?_, rfl⟩
  rw [Option.some.injEq]
  exact subnetText_eq_iff n hn a₀ a₁ a₂ a₃ b₀ b₁ b₂ b₃

/-- C9, for 192.0.2.1 and 192.0.2.254 under /24: both have the key 192.0.2.0/24. -/
theorem subnet_key_iff_same_leading_bits_witness :
    ((subnetKey v4only 24 "192.0.2.1" = subnetKey v4only 24 "192.0.2.254" ↔
      sameLeadingBits (24 : Int).toNat [192, 0, 2, 1] [192, 0, 2, 254]) ∧
    subnetKey v4only 24 "192.0.2.1" =
      some (dottedQuad (List.zipWith (fun x m => x &&& m) [192, 0, 2, 1]
        (CIDRMask 24 32)) ++ "/" ++ uitoa (24 : Int).toNat)) ∧
    subnetKey v4only 24 "192.0.2.1" = some "192.0.2.0/24" ∧
    subnetKey v4only 24 "192.0.2.254" = some "192.0.2.0/24" ∧
    sameLeadingBits 24 [192, 0, 2, 1] [192, 0, 2, 254] :=
  ⟨subnet_key_iff_same_leading_bits v4only 24 "192.0.2.1" "192.0.2.254" 192 0 2 1 192 0 2 254
    (by decide) (by decide) (by decide) (by decide), by decide, by decide, by decide⟩

/-- C10: a call of `Allow` leaves the count and the cooldown entry of every key other
than the subnet key of its address as they were (for a text that does not parse: of
every key); hence the result of a call for the subnet `k` is the same after any calls
`cs` for other subnets as without them. -/
theorem allow_touches_only_its_key (v6 : NetV6) (l : IpLimiter) :
    (∀ (ip : String) (now₁ now₂ : Int) (k : String), subnetKey v6 l.prefixLen ip ≠ some k →
      mapGet (Allow v6 l ip now₁ now₂).2.counts k = mapGet l.counts k ∧
      mapGet (Allow v6 l ip now₁ now₂).2.resets k = mapGet l.resets k) ∧
    (∀ (cs : List Call) (c : Call) (k : String), callKey v6 l.prefixLen c = some k →
      (∀ x ∈ cs, callKey v6 l.prefixLen x ≠ some k) →
      (Allow v6 (runCalls v6 l cs) c.ip c.now₁ c.now₂).1 = (Allow v6 l c.ip c.now₁ c.now₂).1) := by
  refine ⟨fun ip now₁ now₂ k hk => Allow_frame v6 l ip k now₁ now₂ hk, ?_⟩
  intro cs c k hk hcs
  have hf := runCalls_frame v6 k cs l hcs
  have hcfg := runCalls_config v6 cs l
  rw [Allow_of_subnetKey v6 _ c.ip k c.now₁ c.now₂ (by rw [hcfg.1]; exact hk),
    Allow_of_subnetKey v6 l c.ip k c.now₁ c.now₂ hk]
  exact allowSubnet_result_congr l _ k _ _ hcfg.2.1 hf.1 hf.2

/-- C11: for every text that `net.ParseIP` does not parse and every limiter, `Allow`
returns `false` and the limiter after the call is the limiter before it, so the count
map and the cooldown map are unchanged. -/
theorem unparseable_address_rejected (v6 : NetV6) (l : IpLimiter) (ip : String)
    (now₁ now₂ : Int) (h : ParseIP v6 ip = none) :
    Allow v6 l ip now₁ now₂ = (false, l) := by
  unfold Allow
  rw [h]

/-- C11, for the text `not-an-ip` and for the empty text on a limiter with entries. -/
theorem unparseable_address_rejected_witness :
    Allow v4only (runCalls v4only (NewIpLimiter 24 2 100)
        [⟨"192.0.2.1", 0, 0⟩, ⟨"192.0.2.1", 1, 1⟩, ⟨"192.0.2.1", 2, 2⟩]) "not-an-ip" 3 4 =
      (false, runCalls v4only (NewIpLimiter 24 2 100)
        [⟨"192.0.2.1", 0, 0⟩, ⟨"192.0.2.1", 1, 1⟩, ⟨"192.0.2.1", 2, 2⟩]) ∧
    Allow v4only (NewIpLimiter 24 2 100) "" 3 4 = (false, NewIpLimiter 24 2 100) :=
  ⟨unparseable_address_rejected v4only _ "not-an-ip" 3 4 (by decide),
    unparseable_address_rejected v4only _ "" 3 4 (by decide)⟩

/-- Every request goes to the handler of the field `Handler`, whatever its path. -/
theorem serve_eq_limitHandler (v6 : NetV6) : serve v6 = limitHandler v6 :=
  rfl

/-- C12 on the code, with limit 2 and cooldown 100: after three calls from 192.0.2.1
(the third arms the cooldown until 102), the request `/reset?prefix=192.0.` with the
header `X-Forwarded-For: 10.0.0.1` is answered by the limiting handler with 200 and
`Hello, World!`; 10.0.0.0/24 is counted and both entries of 192.0.2.0/24 are still
there, while the handler registered for `/reset` would have removed them. -/
theorem reset_request_reaches_limit_handler :
    serve v4only (runCalls v4only (NewIpLimiter 24 2 100)
        [⟨"192.0.2.1", 0, 0⟩, ⟨"192.0.2.1", 1, 1⟩, ⟨"192.0.2.1", 2, 2⟩])
        ⟨"/reset", "192.0.", "10.0.0.1"⟩ 3 3 =
      ({ status := 200, retryAfter := false, body := "Hello, World!" },
        { prefixLen := 24, limit := 2, cooldown := 100,
          counts := [("192.0.2.0/24", 0), ("10.0.0.0/24", 1)],
          resets := [("192.0.2.0/24", 102)] }) ∧
    resetHandler (runCalls v4only (NewIpLimiter 24 2 100)
        [⟨"192.0.2.1", 0, 0⟩, ⟨"192.0.2.1", 1, 1⟩, ⟨"192.0.2.1", 2, 2⟩])
        ⟨"/reset", "192.0.", "10.0.0.1"⟩ =
      ({ status := 200, retryAfter := false, body := "" },
        { prefixLen := 24, limit := 2, cooldown := 100, counts := [], resets := [] }) := by
  decide

/-- C13 as stated fails: for the header value `1.2.3.4,5.6.7.8` the handler passes the
whole value to `Allow`, and the text before the first comma is `1.2.3.4`. -/
theorem handlerIP_comma_without_space :
    handlerIP ⟨"/", "", "1.2.3.4,5.6.7.8"⟩ = "1.2.3.4,5.6.7.8" ∧
    beforeFirstComma "1.2.3.4,5.6.7.8" = "1.2.3.4" := by
  decide

/-- C14: for every limiter, every address that parses to the subnet `k` and every
reading `now₁` at which `k` has no running cooldown, if the stored count of `k` is at
least `limit` then `Allow` returns `false`, sets the cooldown entry of `k` to
`now₂ + cooldown` (`now₂` is the clock of `main.go:60`) and sets its count to 0. -/
theorem over_limit_call_arms_cooldown (v6 : NetV6) (l : IpLimiter) (ip k : String)
    (now₁ now₂ c : Int) (hk : subnetKey v6 l.prefixLen ip = some k)
    (hact : cooldownActive l k now₁ = false)
    (hc : mapGet l.counts k = some c) (hlim : l.limit ≤ c) :
    (Allow v6 l ip now₁ now₂).1 = false ∧
    mapGet (Allow v6 l ip now₁ now₂).2.resets k = some (now₂ + l.cooldown) ∧
    mapGet (Allow v6 l ip now₁ now₂).2.counts k = some 0 := by
  rw [Allow_of_subnetKey v6 l ip k now₁ now₂ hk,
    allowSubnet_arm l k _ _ hact ((overLimit_iff l k).2 ⟨c, hc, hlim⟩)]
  exact ⟨rfl, mapGet_mapSet_self _ _ _, mapGet_mapSet_self _ _ _⟩

/-- C14, with limit 2 and cooldown 100: the count of 192.0.2.0/24 is 2 and a call at 7
(second reading 8) is rejected, arms the cooldown until 108 and sets the count to 0. -/
theorem over_limit_call_arms_cooldown_witness :
    (Allow v4only (runCalls v4only (NewIpLimiter 24 2 100)
      [⟨"192.0.2.1", 0, 0⟩, ⟨"192.0.2.1", 1, 1⟩]) "192.0.2.9" 7 8).1 = false ∧
    mapGet (Allow v4only (runCalls v4only (NewIpLimiter 24 2 100)
      [⟨"192.0.2.1", 0, 0⟩, ⟨"192.0.2.1", 1, 1⟩]) "192.0.2.9" 7 8).2.resets "192.0.2.0/24" =
      some (8 + 100) ∧
    mapGet (Allow v4only (runCalls v4only (NewIpLimiter 24 2 100)
      [⟨"192.0.2.1", 0, 0⟩, ⟨"192.0.2.1", 1, 1⟩]) "192.0.2.9" 7 8).2.counts "192.0.2.0/24" =
      some 0 :=
  over_limit_call_arms_cooldown v4only
    (runCalls v4only (NewIpLimiter 24 2 100) [⟨"192.0.2.1", 0, 0⟩, ⟨"192.0.2.1", 1, 1⟩])
    "192.0.2.9" "192.0.2.0/24" 7 8 2 (by decide) (by decide) (by decide) (by decide)

/-- C18: in every state reachable from a new limiter by calls of `Allow` and resets,
every key of the cooldown map `resets` is a key of the count map `counts`. -/
theorem cooldown_keys_have_counts (v6 : NetV6) (l : IpLimiter) (k : String)
    (h : Reachable v6 l) (hk : k ∈ mapKeys l.resets) : k ∈ mapKeys l.counts := by
  rw [mem_mapKeys_iff] at hk ⊢
  exact resetsHaveCounts_of_reachable v6 l h k hk

/-- C18, after three calls for 192.0.2.0/24, a reset with the prefix 10. and a call for
10.0.0.0/24. -/
theorem cooldown_keys_have_counts_witness :
    "192.0.2.0/24" ∈ mapKeys (runOps v4only (NewIpLimiter 24 2 100)
      [Op.allow "192.0.2.1" 0 0, Op.allow "192.0.2.1" 1 1, Op.allow "192.0.2.1" 2 2,
        Op.reset "10.", Op.allow "10.0.0.1" 3 3]).counts :=
  cooldown_keys_have_counts v4only
    (runOps v4only (NewIpLimiter 24 2 100)
      [Op.allow "192.0.2.1" 0 0, Op.allow "192.0.2.1" 1 1, Op.allow "192.0.2.1" 2 2,
        Op.reset "10.", Op.allow "10.0.0.1" 3 3])
    "192.0.2.0/24" ⟨24, 2, 100, _, rfl⟩ (by decide)

/-! ## The address text read from the header -/

theorem Index_none_of_no_occurrence (sep : List Char) (hsep : sep ≠ []) :
    ∀ s : List Char, ¬ sep <:+: s → Index s sep = none := by
  intro s
  induction s with
  | nil => intro _; simp [Index, hsep]
  | cons c cs ih =>
    intro h
    unfold Index
    have hp : sep.isPrefixOf (c :: cs) = false := by
      cases hb : sep.isPrefixOf (c :: cs) with
      | false => rfl
      | true => exact absurd (List.isPrefixOf_iff_prefix.1 hb).isInfix h
    rw [hp]
    have hcs : ¬ sep <:+: cs := fun hi => h (hi.trans (List.suffix_cons c cs).isInfix)
    simp [ih hcs]

theorem Index_comma_space (b : List Char) :
    ∀ a : List Char, ¬ [',', ' '] <:+: a →
      Index (a ++ ',' :: ' ' :: b) [',', ' '] = some a.length := by
  intro a
  induction a with
  | nil => intro _; simp [Index, List.isPrefixOf]
  | cons x a ih =>
    intro h
    have ha : ¬ [',', ' '] <:+: a := fun hi => h (hi.trans (List.suffix_cons x a).isInfix)
    have hp : List.isPrefixOf [',', ' '] (x :: a ++ ',' :: ' ' :: b) = false := by
      cases hb : List.isPrefixOf [',', ' '] (x :: a ++ ',' :: ' ' :: b) with
      | false => rfl
      | true =>
        exfalso
        cases a with
        | nil => simp [List.isPrefixOf] at hb
        | cons y a' =>
          simp only [List.cons_append, List.isPrefixOf, Bool.and_true, Bool.and_eq_true,
            beq_iff_eq] at hb
          apply h
          rw [← hb.1, ← hb.2]
          exact (List.prefix_append [',', ' '] a').isInfix
    show Index (x :: (a ++ ',' :: ' ' :: b)) [',', ' '] = some (a.length + 1)
    unfold Index
    rw [show x :: (a ++ ',' :: ' ' :: b) = x :: a ++ ',' :: ' ' :: b from rfl, hp, ih ha]
    rfl

theorem headD_Split_of_index_none (h : String)
    (hi : Index h.data [',', ' '] = none) : (Split h ", ").headD "" = h := by
  unfold Split
  have hd : (", " : String).data = [',', ' '] := rfl
  rw [hd]
  cases hn : h.length with
  | zero => simp [splitLoop]
  | succ n => simp [splitLoop, hi]

theorem headD_Split_of_index_some (h : String) (a b : List Char)
    (hab : h.data = a ++ ',' :: ' ' :: b)
    (hi : Index h.data [',', ' '] = some a.length) :
    (Split h ", ").headD "" = String.mk a := by
  unfold Split
  have hd : (", " : String).data = [',', ' '] := rfl
  rw [hd]
  have hlen : h.length = (a.length + b.length + 1) + 1 := by
    show h.data.length = _
    rw [hab]
    simp only [List.length_append, List.length_cons]
    omega
  rw [hlen]
  simp only [splitLoop, hi, List.map_cons, List.headD_cons]
  rw [hab]
  simp

theorem not_infix_of_no_comma (a : List Char) (ha : ',' ∉ a) : ¬ [',', ' '] <:+: a := by
  intro hi
  exact ha (hi.subset (List.mem_cons_self ',' [' ']))

theorem takeWhile_before_comma (b : List Char) :
    ∀ a : List Char, ',' ∉ a →
      List.takeWhile (fun c => c != ',') (a ++ ',' :: b) = a := by
  intro a
  induction a with
  | nil => intro _; simp [List.takeWhile]
  | cons x a ih =>
    intro h
    have hx : x ≠ ',' := fun e => h (by rw [e]; exact List.mem_cons_self _ _)
    have ha : ',' ∉ a := fun hm => h (List.mem_cons_of_mem x hm)
    rw [List.cons_append, List.takeWhile_cons]
    simp [hx, ih ha]

theorem takeWhile_no_comma : ∀ a : List Char, ',' ∉ a →
    List.takeWhile (fun c => c != ',') a = a := by
  intro a
  induction a with
  | nil => intro _; rfl
  | cons x a ih =>
    intro h
    have hx : x ≠ ',' := fun e => h (by rw [e]; exact List.mem_cons_self _ _)
    have ha : ',' ∉ a := fun hm => h (List.mem_cons_of_mem x hm)
    rw [List.takeWhile_cons]
    simp [hx, ih ha]

/-- C13, amended: for every value of the header `X-Forwarded-For`, the address text the
handler passes to `Allow` is the text before the first comma that is followed by a
space, and the whole value when no comma is followed by a space; it is the text before
the first comma when the first comma of the value is followed by a space, and when the
value has no comma. -/
theorem handlerIP_before_comma_space (r : Request) :
    (∀ a b : List Char, r.forwardedFor.data = a ++ ',' :: ' ' :: b →
      ¬ [',', ' '] <:+: a → handlerIP r = String.mk a) ∧
    (¬ [',', ' '] <:+: r.forwardedFor.data → handlerIP r = r.forwardedFor) ∧
    (∀ a b : List Char, r.forwardedFor.data = a ++ ',' :: ' ' :: b → ',' ∉ a →
      handlerIP r = beforeFirstComma r.forwardedFor) ∧
    (',' ∉ r.forwardedFor.data → handlerIP r = beforeFirstComma r.forwardedFor) := by
  refine ⟨?_, ?_, ?_, ?_⟩
  · intro a b hab ha
    exact headD_Split_of_index_some _ a b hab (by rw [hab]; exact Index_comma_space b a ha)
  · intro h
    exact headD_Split_of_index_none _ (Index_none_of_no_occurrence _ (by simp) _ h)
  · intro a b hab ha
    unfold handlerIP beforeFirstComma
    rw [headD_Split_of_index_some _ a b hab
      (by rw [hab]; exact Index_comma_space b a (not_infix_of_no_comma a ha)), hab,
      takeWhile_before_comma (' ' :: b) a ha]
  · intro h
    unfold handlerIP beforeFirstComma
    rw [headD_Split_of_index_none _
      (Index_none_of_no_occurrence _ (by simp) _ (not_infix_of_no_comma _ h)),
      takeWhile_no_comma _ h]

/-- C13 amended, on the values `1.2.3.4, 5.6.7.8` and `1.2.3.4`. -/
theorem handlerIP_before_comma_space_witness :
    handlerIP ⟨"/", "", "1.2.3.4, 5.6.7.8"⟩ = "1.2.3.4" ∧
    handlerIP ⟨"/", "", "1.2.3.4"⟩ = "1.2.3.4" ∧
    handlerIP ⟨"/", "", "1.2.3.4, 5.6.7.8"⟩ = beforeFirstComma "1.2.3.4, 5.6.7.8" :=
  ⟨(handlerIP_before_comma_space ⟨"/", "", "1.2.3.4, 5.6.7.8"⟩).1
      "1.2.3.4".data "5.6.7.8".data rfl (by decide),
    (handlerIP_before_comma_space ⟨"/", "", "1.2.3.4"⟩).2.1 (by decide),
    (handlerIP_before_comma_space ⟨"/", "", "1.2.3.4, 5.6.7.8"⟩).2.2.1
      "1.2.3.4".data "5.6.7.8".data rfl (by decide)⟩

/-! ## Bounds on the stored counts -/

theorem mem_mapSet {V : Type} (m : GoMap V) (k : String) (v : V) (e : String × V)
    (h : e ∈ mapSet m k v) : e ∈ m ∨ e = (k, v) := by
  induction m with
  | nil =>
    simp only [mapSet, List.mem_singleton] at h
    exact Or.inr h
  | cons e₀ rest ih =>
    obtain ⟨k₀, v₀⟩ := e₀
    unfold mapSet at h
    split at h
    · rcases List.mem_cons.1 h with h | h
      · exact Or.inr h
      · exact Or.inl (List.mem_cons_of_mem _ h)
    · rcases List.mem_cons.1 h with h | h
      · exact Or.inl (by rw [h]; exact List.mem_cons_self _ _)
      · rcases ih h with h | h
        · exact Or.inl (List.mem_cons_of_mem _ h)
        · exact Or.inr h

theorem mem_of_mapGet {V : Type} (m : GoMap V) (k : String) (v : V)
    (h : mapGet m k = some v) : (k, v) ∈ m := by
  induction m with
  | nil => simp [mapGet] at h
  | cons e₀ rest ih =>
    obtain ⟨k₀, v₀⟩ := e₀
    unfold mapGet at h
    split at h
    · rename_i hk
      simp only [Option.some.injEq] at h
      rw [← hk, ← h]
      exact List.mem_cons_self _ _
    · exact List.mem_cons_of_mem _ (ih h)

theorem countsAll_allowSubnet (P : Int → Prop) (l : IpLimiter) (k : String)
    (now₁ now₂ : Int) (h0 : P 0) (h1 : P 1)
    (hs : ∀ c, P c → c < l.limit → P (c + 1)) (h : countsAll P l) :
    countsAll P (allowSubnet l k now₁ now₂).2 := by
  cases hact : cooldownActive l k now₁ with
  | true => rw [allowSubnet_blocked l k _ _ hact]; exact h
  | false =>
    cases hov : overLimit l k with
    | true =>
      rw [allowSubnet_arm l k _ _ hact hov]
      intro e he
      rcases mem_mapSet _ _ _ _ he with he | he
      · exact h e he
      · rw [he]; exact h0
    | false =>
      rw [allowSubnet_admits l k _ _ hact hov]
      intro e he
      rcases mem_mapSet _ _ _ _ he with he | he
      · exact h e he
      · rw [he]
        cases hg : mapGet l.counts k with
        | none => simpa using h1
        | some c =>
          exact hs c (h (k, c) (mem_of_mapGet _ _ _ hg)) ((overLimit_false_iff l k).1 hov c hg)

theorem countsAll_Allow (P : Int → Prop) (v6 : NetV6) (l : IpLimiter) (ip : String)
    (now₁ now₂ : Int) (h0 : P 0) (h1 : P 1)
    (hs : ∀ c, P c → c < l.limit → P (c + 1)) (h : countsAll P l) :
    countsAll P (Allow v6 l ip now₁ now₂).2 := by
  cases hk : subnetKey v6 l.prefixLen ip with
  | none => rw [Allow_of_subnetKey_none v6 l ip now₁ now₂ hk]; exact h
  | some k =>
    rw [Allow_of_subnetKey v6 l ip k now₁ now₂ hk]
    exact countsAll_allowSubnet P l k now₁ now₂ h0 h1 hs h

theorem mem_resetLoop_counts (pfx : String) (e : String × Int) :
    ∀ (ks : List String) (l : IpLimiter), e ∈ (resetLoop pfx ks l).counts → e ∈ l.counts := by
  intro ks
  induction ks with
  | nil => intro l h; exact h
  | cons s ks ih =>
    intro l h
    unfold resetLoop at h
    split at h
    · have := ih _ h
      exact (List.mem_filter.1 this).1
    · exact ih l h

theorem countsAll_Reset (P : Int → Prop) (l : IpLimiter) (pfx : String)
    (h : countsAll P l) : countsAll P (Reset l pfx) :=
  fun e he => h e (mem_resetLoop_counts pfx e _ l he)

theorem applyOp_limit (v6 : NetV6) (l : IpLimiter) (op : Op) :
    (applyOp v6 l op).limit = l.limit := by
  cases op with
  | allow ip now₁ now₂ => exact Allow_limit v6 l ip now₁ now₂
  | reset pfx => exact (resetLoop_config pfx _ l).2.1

theorem countsAll_runOps (P : Int → Prop) (v6 : NetV6) (L : Int) (h0 : P 0) (h1 : P 1)
    (hs : ∀ c, P c → c < L → P (c + 1)) :
    ∀ (ops : List Op) (l : IpLimiter), l.limit = L → countsAll P l →
      (runOps v6 l ops).limit = L ∧ countsAll P (runOps v6 l ops) := by
  intro ops
  induction ops with
  | nil => intro l hl h; exact ⟨hl, h⟩
  | cons op ops ih =>
    intro l hl h
    show (runOps v6 (applyOp v6 l op) ops).limit = L ∧
      countsAll P (runOps v6 (applyOp v6 l op) ops)
    apply ih _ (by rw [applyOp_limit, hl])
    cases op with
    | allow ip now₁ now₂ =>
      exact countsAll_Allow P v6 l ip now₁ now₂ h0 h1 (by rw [hl]; exact hs) h
    | reset pfx => exact countsAll_Reset P l pfx h

theorem runOps_limit (v6 : NetV6) : ∀ (ops : List Op) (l : IpLimiter),
    (runOps v6 l ops).limit = l.limit := by
  intro ops
  induction ops with
  | nil => intro l; rfl
  | cons op ops ih =>
    intro l
    show (runOps v6 (applyOp v6 l op) ops).limit = l.limit
    rw [ih, applyOp_limit]

/-- In a reachable state no stored count is negative, whatever the limit. -/
theorem counts_nonneg_of_reachable (v6 : NetV6) (l : IpLimiter) (h : Reachable v6 l) :
    countsAll (fun c => 0 ≤ c) l := by
  obtain ⟨p, L, d, ops, rfl⟩ := h
  exact (countsAll_runOps (fun c => 0 ≤ c) v6 L (le_refl 0) (by norm_num)
    (fun c hc _ => by show 0 ≤ c + 1; have : 0 ≤ c := hc; omega) ops _ rfl
    (fun e he => by simp [NewIpLimiter] at he)).2

/-- C19: for a limit of at least 1, in every state reachable from a new limiter by
calls of `Allow` (at any clock readings) and resets, every count `c` stored in the count
map satisfies `0 ≤ c ≤ limit`. -/
theorem stored_counts_within_limit (v6 : NetV6) (l : IpLimiter) (k : String) (c : Int)
    (h : Reachable v6 l) (hL : 1 ≤ l.limit) (hkc : (k, c) ∈ l.counts) :
    0 ≤ c ∧ c ≤ l.limit := by
  obtain ⟨p, L, d, ops, rfl⟩ := h
  have hlim : (runOps v6 (NewIpLimiter p L d) ops).limit = L := runOps_limit v6 ops _
  rw [hlim] at hL ⊢
  exact (countsAll_runOps (fun c => 0 ≤ c ∧ c ≤ L) v6 L ⟨le_refl 0, by omega⟩
    ⟨by norm_num, hL⟩
    (fun c hc hlt => by
      show 0 ≤ c + 1 ∧ c + 1 ≤ L
      have : 0 ≤ c ∧ c ≤ L := hc
      omega)
    ops (NewIpLimiter p L d) rfl (fun e he => by simp [NewIpLimiter] at he)).2 (k, c) hkc

/-- C19, with limit 2: after three calls for 192.0.2.0/24, a call for 10.0.0.0/24, a
reset with the prefix 172. and one more call, the stored count 0 of 192.0.2.0/24 is
between 0 and 2. -/
theorem stored_counts_within_limit_witness :
    (0 : Int) ≤ 0 ∧ (0 : Int) ≤ (runOps v4only (NewIpLimiter 24 2 100)
      [Op.allow "192.0.2.1" 0 0, Op.allow "192.0.2.1" 1 1, Op.allow "192.0.2.1" 2 2,
        Op.allow "10.0.0.1" 3 3, Op.reset "172.", Op.allow "10.0.0.1" 4 4]).limit :=
  stored_counts_within_limit v4only
    (runOps v4only (NewIpLimiter 24 2 100)
      [Op.allow "192.0.2.1" 0 0, Op.allow "192.0.2.1" 1 1, Op.allow "192.0.2.1" 2 2,
        Op.allow "10.0.0.1" 3 3, Op.reset "172.", Op.allow "10.0.0.1" 4 4])
    "192.0.2.0/24" 0 ⟨24, 2, 100, _, rfl⟩ (by decide) (by decide)

/-- In a state in which the stored count of the subnet key `k` of the address is not
negative, `Allow` returns `true` if and only if it raises the count of `k` by exactly 1,
a missing count being 0; and a call leaves the count of every key whose cooldown is
running at `now₁` as it was. -/
theorem admitted_iff_count_raised_of_nonneg (v6 : NetV6) (l : IpLimiter) (ip k : String)
    (now₁ now₂ : Int) (hk : subnetKey v6 l.prefixLen ip = some k)
    (hnn : ∀ c, mapGet l.counts k = some c → 0 ≤ c) :
    ((Allow v6 l ip now₁ now₂).1 = true ↔
      (mapGet (Allow v6 l ip now₁ now₂).2.counts k).getD 0 =
        (mapGet l.counts k).getD 0 + 1) ∧
    (∀ k', cooldownActive l k' now₁ = true →
      mapGet (Allow v6 l ip now₁ now₂).2.counts k' = mapGet l.counts k') := by
  rw [Allow_of_subnetKey v6 l ip k now₁ now₂ hk]
  cases hact : cooldownActive l k now₁ with
  | true =>
    rw [allowSubnet_blocked l k _ _ hact]
    refine ⟨⟨fun h => (by cases h), fun h => ?_⟩, fun _ _ => rfl⟩
    simp only at h
    omega
  | false =>
    have hframe : ∀ k', cooldownActive l k' now₁ = true →
        mapGet (allowSubnet l k now₁ now₂).2.counts k' = mapGet l.counts k' := by
      intro k' hk'
      have hne : k' ≠ k := by
        intro e; rw [e, hact] at hk'; cases hk'
      exact (allowSubnet_frame l k k' now₁ now₂ hne).1
    refine ⟨?_, hframe⟩
    cases hov : overLimit l k with
    | true =>
      obtain ⟨c, hc, _⟩ := (overLimit_iff l k).1 hov
      have h0 := hnn c hc
      rw [allowSubnet_arm l k _ _ hact hov]
      refine ⟨fun h => (by cases h), fun h => ?_⟩
      have hget : mapGet (mapSet l.counts k 0) k = some 0 := mapGet_mapSet_self _ _ _
      simp only [hget, hc, Option.getD_some] at h
      omega
    | false =>
      rw [allowSubnet_admits l k _ _ hact hov]
      refine ⟨fun _ => ?_, fun _ => rfl⟩
      show (mapGet (mapSet l.counts k _) k).getD 0 = _
      rw [mapGet_mapSet_self]
      rfl

/-- C15: in every state reachable from a new limiter by calls of `Allow` and resets
(whatever the limit), for every address that parses, with subnet key `k`, and all clock
readings, `Allow` returns `true` if and only if it raises the count of `k` by exactly 1,
a missing count being 0; and it leaves the count of every key whose cooldown is running
at `now₁` as it was, so it never raises such a count. -/
theorem admitted_iff_count_raised (v6 : NetV6) (l : IpLimiter) (ip k : String)
    (now₁ now₂ : Int) (h : Reachable v6 l) (hk : subnetKey v6 l.prefixLen ip = some k) :
    ((Allow v6 l ip now₁ now₂).1 = true ↔
      (mapGet (Allow v6 l ip now₁ now₂).2.counts k).getD 0 =
        (mapGet l.counts k).getD 0 + 1) ∧
    (∀ k', cooldownActive l k' now₁ = true →
      mapGet (Allow v6 l ip now₁ now₂).2.counts k' = mapGet l.counts k') :=
  admitted_iff_count_raised_of_nonneg v6 l ip k now₁ now₂ hk
    (fun c hc => counts_nonneg_of_reachable v6 l h (k, c) (mem_of_mapGet _ _ _ hc))

/-- C15, with limit 2 and cooldown 100, on the state after two calls for 192.0.2.0/24
and one for 10.0.0.0/24: a call for 10.0.0.0/24 returns `true` and raises its count from
1 to 2, and a call for 192.0.2.0/24, whose count is at the limit, returns `false` and
does not raise its count by 1. -/
theorem admitted_iff_count_raised_witness :
    ((Allow v4only (runOps v4only (NewIpLimiter 24 2 100)
        [Op.allow "192.0.2.1" 0 0, Op.allow "192.0.2.2" 1 1, Op.allow "10.0.0.1" 2 2])
        "10.0.0.9" 3 3).1 = true ∧
      (mapGet (Allow v4only (runOps v4only (NewIpLimiter 24 2 100)
        [Op.allow "192.0.2.1" 0 0, Op.allow "192.0.2.2" 1 1, Op.allow "10.0.0.1" 2 2])
        "10.0.0.9" 3 3).2.counts "10.0.0.0/24").getD 0 =
        (mapGet (runOps v4only (NewIpLimiter 24 2 100)
          [Op.allow "192.0.2.1" 0 0, Op.allow "192.0.2.2" 1 1, Op.allow "10.0.0.1" 2 2]).counts
          "10.0.0.0/24").getD 0 + 1) ∧
    (Allow v4only (runOps v4only (NewIpLimiter 24 2 100)
        [Op.allow "192.0.2.1" 0 0, Op.allow "192.0.2.2" 1 1, Op.allow "10.0.0.1" 2 2])
        "192.0.2.3" 3 3).1 = false :=
  ⟨⟨(admitted_iff_count_raised v4only (runOps v4only (NewIpLimiter 24 2 100)
        [Op.allow "192.0.2.1" 0 0, Op.allow "192.0.2.2" 1 1, Op.allow "10.0.0.1" 2 2])
        "10.0.0.9" "10.0.0.0/24" 3 3 ⟨24, 2, 100, _, rfl⟩ (by decide)).1.2 (by decide),
      (admitted_iff_count_raised v4only (runOps v4only (NewIpLimiter 24 2 100)
        [Op.allow "192.0.2.1" 0 0, Op.allow "192.0.2.2" 1 1, Op.allow "10.0.0.1" 2 2])
        "10.0.0.9" "10.0.0.0/24" 3 3 ⟨24, 2, 100, _, rfl⟩ (by decide)).1.1 (by decide)⟩,
    by decide⟩

/-- With a limit of at most 0, a key whose stored count is not negative is never
admitted. -/
theorem never_admitted (v6 : NetV6) (k : String) :
    ∀ (cs : List Call) (l : IpLimiter), l.limit ≤ 0 →
    (∃ c, mapGet l.counts k = some c ∧ 0 ≤ c) →
    resultsFor v6 k l cs = List.replicate (callsFor v6 k l.prefixLen cs) false := by
  intro cs
  induction cs with
  | nil => intro l _ _; rfl
  | cons c cs ih =>
    intro l hlim hcnt
    by_cases hc : callKey v6 l.prefixLen c = some k
    · have hA := Allow_of_subnetKey v6 l c.ip k c.now₁ c.now₂ hc
      rw [callsFor_cons_pos v6 k _ c cs hc]
      obtain ⟨c₀, hc₀, hpos⟩ := hcnt
      cases hact : cooldownActive l k c.now₁ with
      | true =>
        rw [allowSubnet_blocked l k _ _ hact] at hA
        have ih' := ih l hlim ⟨c₀, hc₀, hpos⟩
        simp only [resultsFor, hc, if_true, hA, ih']
        rfl
      | false =>
        have hov : overLimit l k = true := (overLimit_iff l k).2 ⟨c₀, hc₀, by omega⟩
        rw [allowSubnet_arm l k _ _ hact hov] at hA
        have ih' := ih (Allow v6 l c.ip c.now₁ c.now₂).2 (by simpa using hlim)
          ⟨0, by rw [hA]; exact mapGet_mapSet_self _ _ _, le_refl 0⟩
        simp only [Allow_prefixLen] at ih'
        simp only [resultsFor, hc, if_true, ih']
        rw [hA]
        rfl
    · have hf := Allow_frame v6 l c.ip k c.now₁ c.now₂ hc
      rw [callsFor_cons_neg v6 k _ c cs hc]
      have ih' := ih (Allow v6 l c.ip c.now₁ c.now₂).2 (by simpa using hlim)
        (by rw [hf.1]; exact hcnt)
      simp only [Allow_prefixLen] at ih'
      simp only [resultsFor, hc, if_false, ih']

/-- C20: with a limit of at most 0 and a subnet key `k` that has no entry, the first
call for `k` returns `true`, and every later call for `k` (among the calls `cs`, at any
clock readings) returns `false`. -/
theorem nonpositive_limit_admits_once (v6 : NetV6) (l : IpLimiter) (k : String) (c : Call)
    (cs : List Call) (hlim : l.limit ≤ 0)
    (hc : mapGet l.counts k = none) (hr : mapGet l.resets k = none)
    (hk : callKey v6 l.prefixLen c = some k) :
    (Allow v6 l c.ip c.now₁ c.now₂).1 = true ∧
    resultsFor v6 k (Allow v6 l c.ip c.now₁ c.now₂).2 cs =
      List.replicate (callsFor v6 k l.prefixLen cs) false := by
  have hact : cooldownActive l k c.now₁ = false := by simp [cooldownActive, hr]
  have hov : overLimit l k = false := by simp [overLimit, hc]
  have hA := Allow_of_subnetKey v6 l c.ip k c.now₁ c.now₂ hk
  rw [allowSubnet_admits l k _ _ hact hov] at hA
  refine ⟨by rw [hA], ?_⟩
  have h := never_admitted v6 k cs (Allow v6 l c.ip c.now₁ c.now₂).2 (by simpa using hlim)
    ⟨1, by rw [hA, hc]; exact mapGet_mapSet_self _ _ _, by norm_num⟩
  simpa using h

/-- C20, with limit 0 and cooldown 100: the first call for 192.0.2.0/24 is admitted and
the calls for it at 1, 2 and 500 are rejected. -/
theorem nonpositive_limit_admits_once_witness :
    (Allow v4only (NewIpLimiter 24 0 100) "192.0.2.1" 0 0).1 = true ∧
    resultsFor v4only "192.0.2.0/24" (Allow v4only (NewIpLimiter 24 0 100) "192.0.2.1" 0 0).2
        [⟨"192.0.2.1", 1, 1⟩, ⟨"10.0.0.1", 1, 1⟩, ⟨"192.0.2.2", 2, 2⟩,
          ⟨"192.0.2.1", 500, 500⟩] =
      List.replicate (callsFor v4only "192.0.2.0/24" 24
        [⟨"192.0.2.1", 1, 1⟩, ⟨"10.0.0.1", 1, 1⟩, ⟨"192.0.2.2", 2, 2⟩,
          ⟨"192.0.2.1", 500, 500⟩]) false :=
  nonpositive_limit_admits_once v4only (NewIpLimiter 24 0 100) "192.0.2.0/24"
    ⟨"192.0.2.1", 0, 0⟩
    [⟨"192.0.2.1", 1, 1⟩, ⟨"10.0.0.1", 1, 1⟩, ⟨"192.0.2.2", 2, 2⟩, ⟨"192.0.2.1", 500, 500⟩]
    (by decide) rfl rfl (by decide)

/-! ## Admitted calls in a window of one cooldown -/

theorem clockFrom_cons (t : Int) (c : Call) (cs : List Call) :
    clockFrom t (c :: cs) = true ↔ t ≤ c.now₁ ∧ c.now₁ ≤ c.now₂ ∧ clockFrom c.now₂ cs = true := by
  simp [clockFrom, and_assoc]

theorem admittedIn_cons_zero (v6 : NetV6) (k : String) (s e : Int) (l : IpLimiter) (c : Call)
    (cs : List Call)
    (h : ¬ (callKey v6 l.prefixLen c = some k ∧ s ≤ c.now₁ ∧ c.now₁ < e ∧
      (Allow v6 l c.ip c.now₁ c.now₂).1 = true)) :
    admittedIn v6 k s e l (c :: cs) = admittedIn v6 k s e (Allow v6 l c.ip c.now₁ c.now₂).2 cs := by
  show (if _ then 1 else 0) + _ = _
  rw [if_neg h, Nat.zero_add]

theorem admittedIn_cons_one (v6 : NetV6) (k : String) (s e : Int) (l : IpLimiter) (c : Call)
    (cs : List Call)
    (h : callKey v6 l.prefixLen c = some k ∧ s ≤ c.now₁ ∧ c.now₁ < e ∧
      (Allow v6 l c.ip c.now₁ c.now₂).1 = true) :
    admittedIn v6 k s e l (c :: cs) =
      1 + admittedIn v6 k s e (Allow v6 l c.ip c.now₁ c.now₂).2 cs := by
  show (if _ then 1 else 0) + _ = _
  rw [if_pos h]

theorem le_of_cooldownActive_false (l : IpLimiter) (k : String) (now₁ u : Int)
    (h : cooldownActive l k now₁ = false) (hu : mapGet l.resets k = some u) : u ≤ now₁ := by
  by_contra hlt
  have : cooldownActive l k now₁ = true := (cooldownActive_iff l k now₁).2 ⟨u, hu, by omega⟩
  rw [h] at this
  cases this

/-- Once the cooldown entry of `k` is at or after the end `e` of the window, no call
for `k` with a reading before `e` is admitted any more. -/
theorem none_admitted_after (v6 : NetV6) (k : String) (s e d : Int) (hd : 0 ≤ d) :
    ∀ (cs : List Call) (l : IpLimiter) (t : Int), clockFrom t cs = true → l.cooldown = d →
    (∃ u, mapGet l.resets k = some u ∧ e ≤ u) → admittedIn v6 k s e l cs = 0 := by
  intro cs
  induction cs with
  | nil => intro l t _ _ _; rfl
  | cons c cs ih =>
    intro l t hclock hcd hu
    obtain ⟨_, h12, hrest⟩ := (clockFrom_cons t c cs).1 hclock
    obtain ⟨u, hres, hue⟩ := hu
    by_cases hk : callKey v6 l.prefixLen c = some k
    · have hA := Allow_of_subnetKey v6 l c.ip k c.now₁ c.now₂ hk
      cases hact : cooldownActive l k c.now₁ with
      | true =>
        rw [allowSubnet_blocked l k _ _ hact] at hA
        rw [admittedIn_cons_zero v6 k s e l c cs (fun h => by rw [hA] at h; cases h.2.2.2), hA]
        exact ih l c.now₂ hrest hcd ⟨u, hres, hue⟩
      | false =>
        have hle := le_of_cooldownActive_false l k c.now₁ u hact hres
        cases hov : overLimit l k with
        | true =>
          rw [allowSubnet_arm l k _ _ hact hov] at hA
          rw [admittedIn_cons_zero v6 k s e l c cs (fun h => by rw [hA] at h; cases h.2.2.2)]
          refine ih _ c.now₂ hrest (by simpa using hcd) ⟨c.now₂ + l.cooldown, ?_, by omega⟩
          rw [hA]
          exact mapGet_mapSet_self _ _ _
        | false =>
          rw [allowSubnet_admits l k _ _ hact hov] at hA
          rw [admittedIn_cons_zero v6 k s e l c cs (fun h => by have := h.2.2.1; omega)]
          refine ih _ c.now₂ hrest (by simpa using hcd) ⟨u, ?_, hue⟩
          rw [hA]
          exact hres
    · rw [admittedIn_cons_zero v6 k s e l c cs (fun h => hk h.1)]
      refine ih _ c.now₂ hrest (by simpa using hcd) ⟨u, ?_, hue⟩
      rw [(Allow_frame v6 l c.ip k c.now₁ c.now₂ hk).2]
      exact hres

/-- The counting argument: `w` calls of the running batch of `k` were admitted in the
window so far; together with the calls of `cs` admitted in the window they are at most
`L`. -/
theorem window_bound (v6 : NetV6) (k : String) (s d L : Int) (hL : 1 ≤ L) (hd : 0 ≤ d) :
    ∀ (cs : List Call) (l : IpLimiter) (w : Nat) (t : Int), clockFrom t cs = true →
    l.limit = L → l.cooldown = d →
    (w : Int) ≤ (mapGet l.counts k).getD 0 → (mapGet l.counts k).getD 0 ≤ L →
    (0 < w → s ≤ t) →
    (w : Int) + (admittedIn v6 k s (s + d) l cs : Int) ≤ L := by
  intro cs
  induction cs with
  | nil =>
    intro l w t _ _ _ hw hle _
    simp only [admittedIn, Nat.cast_zero, add_zero]
    omega
  | cons c cs ih =>
    intro l w t hclock hlim hcd hw hle hs
    obtain ⟨ht, h12, hrest⟩ := (clockFrom_cons t c cs).1 hclock
    have hs' : 0 < w → s ≤ c.now₂ := fun h0 => by have := hs h0; omega
    by_cases hk : callKey v6 l.prefixLen c = some k
    · have hA := Allow_of_subnetKey v6 l c.ip k c.now₁ c.now₂ hk
      cases hact : cooldownActive l k c.now₁ with
      | true =>
        rw [allowSubnet_blocked l k _ _ hact] at hA
        rw [admittedIn_cons_zero v6 k s (s + d) l c cs
          (fun h => by rw [hA] at h; cases h.2.2.2), hA]
        exact ih l w c.now₂ hrest hlim hcd hw hle hs'
      | false =>
        cases hov : overLimit l k with
        | true =>
          rw [allowSubnet_arm l k _ _ hact hov] at hA
          rw [admittedIn_cons_zero v6 k s (s + d) l c cs
            (fun h => by rw [hA] at h; cases h.2.2.2)]
          have hcnt' : mapGet (Allow v6 l c.ip c.now₁ c.now₂).2.counts k = some 0 := by
            rw [hA]; exact mapGet_mapSet_self _ _ _
          have hres' : mapGet (Allow v6 l c.ip c.now₁ c.now₂).2.resets k =
              some (c.now₂ + l.cooldown) := by
            rw [hA]; exact mapGet_mapSet_self _ _ _
          by_cases hw0 : 0 < w
          · have hz := none_admitted_after v6 k s (s + d) d hd cs
              (Allow v6 l c.ip c.now₁ c.now₂).2 c.now₂ hrest (by simpa using hcd)
              ⟨c.now₂ + l.cooldown, hres', by have := hs hw0; omega⟩
            rw [hz]
            simp only [Nat.cast_zero, add_zero]
            omega
          · have hw1 : w = 0 := by omega
            subst hw1
            exact ih _ 0 c.now₂ hrest (by simpa using hlim) (by simpa using hcd)
              (by rw [hcnt']; simp) (by rw [hcnt']; simp; omega) (fun h0 => absurd h0 hw0)
        | false =>
          have hlt := (overLimit_false_iff l k).1 hov
          rw [allowSubnet_admits l k _ _ hact hov] at hA
          have hcnt' : mapGet (Allow v6 l c.ip c.now₁ c.now₂).2.counts k =
              some ((mapGet l.counts k).getD 0 + 1) := by
            rw [hA]; exact mapGet_mapSet_self _ _ _
          have hr : (Allow v6 l c.ip c.now₁ c.now₂).1 = true := by rw [hA]
          have hle' : (mapGet l.counts k).getD 0 + 1 ≤ L := by
            cases hg : mapGet l.counts k with
            | none => simpa using hL
            | some c₀ => have := hlt c₀ hg; simp only [Option.getD_some]; omega
          by_cases hin : s ≤ c.now₁ ∧ c.now₁ < s + d
          · rw [admittedIn_cons_one v6 k s (s + d) l c cs ⟨hk, hin.1, hin.2, hr⟩]
            have := ih (Allow v6 l c.ip c.now₁ c.now₂).2 (w + 1) c.now₂ hrest
              (by simpa using hlim) (by simpa using hcd)
              (by rw [hcnt']; simp only [Option.getD_some]; push_cast; omega)
              (by rw [hcnt']; simpa using hle')
              (fun _ => by omega)
            push_cast at this ⊢
            omega
          · rw [admittedIn_cons_zero v6 k s (s + d) l c cs
              (fun h => hin ⟨h.2.1, h.2.2.1⟩)]
            exact ih (Allow v6 l c.ip c.now₁ c.now₂).2 w c.now₂ hrest
              (by simpa using hlim) (by simpa using hcd)
              (by rw [hcnt']; simp only [Option.getD_some]; omega)
              (by rw [hcnt']; simpa using hle') hs'
    · have hf := Allow_frame v6 l c.ip k c.now₁ c.now₂ hk
      rw [admittedIn_cons_zero v6 k s (s + d) l c cs (fun h => hk h.1)]
      exact ih (Allow v6 l c.ip c.now₁ c.now₂).2 w c.now₂ hrest
        (by simpa using hlim) (by simpa using hcd) (by rw [hf.1]; exact hw)
        (by rw [hf.1]; exact hle) hs'

/-- C17: with a limit `L ≥ 1` and a cooldown `d ≥ 0`, for every sequence of calls of
`Allow` on a new limiter whose clock readings do not go back, every subnet key `k` and
every instant `s`, at most `L` of the calls for `k` with a reading in the half-open
interval from `s` to `s + d` return `true`. -/
theorem window_admits_at_most_limit (v6 : NetV6) (prefixLen L d : Int) (cs : List Call)
    (k : String) (s t₀ : Int) (hL : 1 ≤ L) (hd : 0 ≤ d) (hclock : clockFrom t₀ cs = true) :
    (admittedIn v6 k s (s + d) (NewIpLimiter prefixLen L d) cs : Int) ≤ L := by
  have h := window_bound v6 k s d L hL hd cs (NewIpLimiter prefixLen L d) 0 t₀ hclock rfl rfl
    (by simp [NewIpLimiter, mapGet]) (by simp [NewIpLimiter, mapGet]; omega)
    (fun h0 => absurd h0 (lt_irrefl 0))
  simpa using h

/-- C17, with limit 2 and cooldown 100: of the calls for 192.0.2.0/24 at 0, 1, 2, 50,
102, 103 and 104, those at 0, 1, 102 and 103 are admitted; the window from 3 to 103
holds one of them. -/
theorem window_admits_at_most_limit_witness :
    (admittedIn v4only "192.0.2.0/24" 3 (3 + 100) (NewIpLimiter 24 2 100)
      [⟨"192.0.2.1", 0, 0⟩, ⟨"192.0.2.1", 1, 1⟩, ⟨"192.0.2.1", 2, 2⟩, ⟨"192.0.2.1", 50, 50⟩,
        ⟨"192.0.2.1", 102, 102⟩, ⟨"192.0.2.1", 103, 103⟩, ⟨"192.0.2.1", 104, 105⟩] : Int) ≤ 2 ∧
    results v4only (NewIpLimiter 24 2 100)
      [⟨"192.0.2.1", 0, 0⟩, ⟨"192.0.2.1", 1, 1⟩, ⟨"192.0.2.1", 2, 2⟩, ⟨"192.0.2.1", 50, 50⟩,
        ⟨"192.0.2.1", 102, 102⟩, ⟨"192.0.2.1", 103, 103⟩, ⟨"192.0.2.1", 104, 105⟩] =
      [true, true, false, false, true, true, false] :=
  ⟨window_admits_at_most_limit v4only 24 2 100
    [⟨"192.0.2.1", 0, 0⟩, ⟨"192.0.2.1", 1, 1⟩, ⟨"192.0.2.1", 2, 2⟩, ⟨"192.0.2.1", 50, 50⟩,
      ⟨"192.0.2.1", 102, 102⟩, ⟨"192.0.2.1", 103, 103⟩, ⟨"192.0.2.1", 104, 105⟩]
    "192.0.2.0/24" 3 0 (by decide) (by decide) (by decide), by decide⟩

end RateLimiter
